import Mathlib

/-!
# Verification of the universal product-image processor

A shallow embedding of `universal_processor.py` (class `UniversalProcessor`):
the mask builder, bounding-box extractor, unmatte fringe remover, flood-fill
background detection, compositor placement arithmetic and the adaptive
size-constrained encoder, together with theorems settling the specified
properties of each stage.

Modelling conventions:
* Python `int` is `ℤ`, pixel channel bytes are `ℕ` (0..255), real-valued
  intermediates (numpy float arrays, Python floats) are `ℚ`.  All comparison
  thresholds appearing in the source (0.95, 0.05, 0.5, 0.35, 1e-6) are exactly
  representable decimals whose decision boundaries fall strictly between
  representable pixel values, so the `ℚ` model agrees with the floating-point
  program on every reachable input.
* External PIL raster primitives (resampling filters, Gaussian blur) are
  parameters of the embedding (`RasterOps`); only their dimension contract
  (a resize returns an image of the requested size) is used, which is the
  documented PIL behaviour.  All arithmetic done by the Python code itself is
  embedded exactly.
* Python's banker's rounding (`round`) and truncation (`int(...)`) are
  embedded as `pyRound` and `pyTrunc`.
-/

/-- Python's `round` on a rational: round half to even (banker's rounding). -/
def pyRound (q : ℚ) : ℤ :=
  let f := ⌊q⌋
  let r := q - f
  if r < 1/2 then f
  else if 1/2 < r then f + 1
  else if f % 2 = 0 then f else f + 1

/-- Python's `int(...)` applied to a float: truncation toward zero. -/
def pyTrunc (q : ℚ) : ℤ :=
  if 0 ≤ q then ⌊q⌋ else -⌊-q⌋

/-! ## Adaptive encoder (`process_image`, lines 444–481)

The WEBP branch with a configured `target_max_kb` runs an adaptive loop:
encode at `max(1, quality_try)`, record the result as best, stop if the byte
size is within budget (`len(data)/1024.0 <= float(target_max_kb)`, i.e.
`len(data) <= 1024 * target_max_kb` exactly) or the quality has reached the
floor; otherwise decrease quality by the graduated schedule and retry, at most
10 iterations.  The external codec is modelled as a function `f` from the
quality actually passed to `save` to the encoded byte length. -/

/-- The quality decrement schedule (lines 466–471). -/
def stepQuality (q : ℤ) : ℤ :=
  if q > 85 then q - 7 else if q > 75 then q - 5 else q - 3

/-- Stop condition of one loop iteration (line 463):
size within budget or quality at/below the floor. -/
def encStop (f : ℤ → ℕ) (targetKb : ℕ) (minQ q : ℤ) : Prop :=
  f (max 1 q) ≤ 1024 * targetKb ∨ q ≤ minQ

instance (f : ℤ → ℕ) (t : ℕ) (minQ q : ℤ) : Decidable (encStop f t minQ q) :=
  inferInstanceAs (Decidable (f (max 1 q) ≤ 1024 * t ∨ q ≤ minQ))

/-- The list of qualities tried by the adaptive loop (lines 451–471), in
order; the fuel argument embeds `for _ in range(10)`. -/
def encodeTrace (f : ℤ → ℕ) (targetKb : ℕ) (minQ : ℤ) : ℤ → ℕ → List ℤ
  | _, 0 => []
  | q, n + 1 =>
    q :: (if encStop f targetKb minQ q then [] else
      encodeTrace f targetKb minQ (stepQuality q) n)

/-- The loop state machine returning `best_quality` (the quality whose encode
is kept and written, lines 449–474): each iteration overwrites
`best_quality` with the current quality before testing the stop condition. -/
def adaptiveLoop (f : ℤ → ℕ) (targetKb : ℕ) (minQ : ℤ) : ℤ → ℤ → ℕ → ℤ
  | _, best, 0 => best
  | q, _, n + 1 =>
    if encStop f targetKb minQ q then q
    else adaptiveLoop f targetKb minQ (stepQuality q) q n

/-- Kept quality of the adaptive WEBP encode starting from base quality
`q0` (`quality_try = int(self.quality)`, `best_quality = quality_try`). -/
def keptQuality (f : ℤ → ℕ) (targetKb : ℕ) (minQ q0 : ℤ) : ℤ :=
  adaptiveLoop f targetKb minQ q0 q0 10

/-- Qualities tried by the whole encoding stage: with no `target_max_kb`
configured the WEBP branch saves exactly once at the base quality
(lines 475–481); with a target it runs the adaptive loop. -/
def encodeQualities (f : ℤ → ℕ) (targetMaxKb : Option ℕ) (minQ q0 : ℤ) : List ℤ :=
  match targetMaxKb with
  | none => [q0]
  | some t => encodeTrace f t minQ q0 10

/-- Encoded byte sizes observed across the adaptive loop, parallel to
`encodeTrace` (the codec is invoked at `max(1, quality_try)`). -/
def sizeTrace (f : ℤ → ℕ) (targetKb : ℕ) (minQ q0 : ℤ) : List ℕ :=
  (encodeTrace f targetKb minQ q0 10).map (fun q => f (max 1 q))

/-! ## Pixel and image model

`PImage` models a decoded PIL raster: dimensions, whether the mode carries an
alpha band (`'A' in img.getbands()`, i.e. RGBA after the pipeline's mode
normalisation), and the channel bytes.  Pixel access is a total function on
`ℤ × ℤ` coordinates (row `y`, column `x`); values outside the extent are
irrelevant junk, and every mask derived from an image is false outside the
extent, matching numpy's bounded arrays. -/

structure Pix where
  r : ℕ
  g : ℕ
  b : ℕ
  a : ℕ
deriving DecidableEq

structure PImage where
  width : ℕ
  height : ℕ
  hasAlpha : Bool
  px : ℤ → ℤ → Pix

/-- Bounds test for a pixel coordinate of an `h × w` array. -/
def inB (h w : ℕ) (y x : ℤ) : Bool :=
  decide (0 ≤ y ∧ y < (h : ℤ) ∧ 0 ≤ x ∧ x < (w : ℤ))

/-- `np.any(mask)` over an `h × w` boolean array. -/
def anyCell (h w : ℕ) (m : ℤ → ℤ → Bool) : Bool :=
  (List.range h).any fun y => (List.range w).any fun x => m (y : ℤ) (x : ℤ)

/-! ## Unmatte fringe remover (`_unmatte_rgba`, lines 61–152)

Channel values are normalised to `ℚ` by `/255` (the source divides the float
array by 255.0).  The thresholds 0.95 / 0.05 / 0.5 and the distance bound
0.35 never tie against a representable pixel value, so the `ℚ` comparisons
agree with the program's floating-point ones. -/

/-- Normalised alpha of a pixel. -/
def aQ (img : PImage) (y x : ℤ) : ℚ := ((img.px y x).a : ℚ) / 255

/-- One step of the 3×3 binary dilation (`dilate_mask`, lines 89–99): the
source pads with `False`, so out-of-extent neighbours contribute nothing,
and the result is an array of the same extent. -/
def dilate (h w : ℕ) (m : ℤ → ℤ → Bool) : ℤ → ℤ → Bool := fun y x =>
  inB h w y x &&
    (m (y-1) (x-1) || m (y-1) x || m (y-1) (x+1) ||
     m y (x-1) || m y x || m y (x+1) ||
     m (y+1) (x-1) || m (y+1) x || m (y+1) (x+1))

/-- `opaque_mask = a >= 0.95` (line 85). -/
def umOpaqueM (img : PImage) : ℤ → ℤ → Bool := fun y x =>
  inB img.height img.width y x && decide ((95 : ℚ)/100 ≤ aQ img y x)

/-- `transparent_mask = a <= 0.05` (line 86). -/
def umTranspM (img : PImage) : ℤ → ℤ → Bool := fun y x =>
  inB img.height img.width y x && decide (aQ img y x ≤ (5 : ℚ)/100)

/-- `edge_mask = dilate(transparent, 2) & ~opaque & ~transparent`
(lines 102–105). -/
def umEdgeM (img : PImage) : ℤ → ℤ → Bool := fun y x =>
  dilate img.height img.width (dilate img.height img.width (umTranspM img)) y x &&
    !umOpaqueM img y x && !umTranspM img y x

/-- `low_alpha_mask = (a < 0.5) & (a > 0.05)` (line 108). -/
def umLowAlphaM (img : PImage) : ℤ → ℤ → Bool := fun y x =>
  inB img.height img.width y x &&
    decide (aQ img y x < (1 : ℚ)/2) && decide ((5 : ℚ)/100 < aQ img y x)

/-- `antialiased_edges = low_alpha_mask & dilate(opaque, 1)` (lines 109–110). -/
def umAntiM (img : PImage) : ℤ → ℤ → Bool := fun y x =>
  umLowAlphaM img y x && dilate img.height img.width (umOpaqueM img) y x

/-- `potential_fringe_mask = edge_mask | antialiased_edges` (line 113). -/
def umPotentialM (img : PImage) : ℤ → ℤ → Bool := fun y x =>
  umEdgeM img y x || umAntiM img y x

/-- Squared normalised Euclidean RGB distance to the matte colour
(line 122); the source compares `sqrt(distSq) < 0.35`, equivalent to
`distSq < 0.35²` since both sides are nonnegative. -/
def umDistSq (matte : ℕ × ℕ × ℕ) (img : PImage) (y x : ℤ) : ℚ :=
  let p := img.px y x
  ((p.r : ℚ)/255 - (matte.1 : ℚ)/255)^2 +
  ((p.g : ℚ)/255 - (matte.2.1 : ℚ)/255)^2 +
  ((p.b : ℚ)/255 - (matte.2.2 : ℚ)/255)^2

/-- `final_unmatte_mask = potential_fringe_mask & (rgb_distance < 0.35)`
(lines 129–132). -/
def umFinalM (matte : ℕ × ℕ × ℕ) (img : PImage) : ℤ → ℤ → Bool := fun y x =>
  umPotentialM img y x && decide (umDistSq matte img y x < ((35 : ℚ)/100)^2)

/-- `8`-bit quantisation `(v * 255.0 + 0.5).astype(np.uint8)` (line 151):
all stored values are nonnegative, so the truncation is a floor. -/
def quantByte (v : ℚ) : ℕ := (⌊v * 255 + 1/2⌋).toNat

/-- The alpha-compositing inverse applied to one channel (lines 138–143):
`clip((c - matte * (1 - a)) / clip(a, 1e-6, 1.0), 0, 1)`. -/
def umUnmatted (matteC : ℕ) (cb : ℕ) (av : ℚ) : ℚ :=
  max 0 (min (((cb : ℚ)/255 - ((matteC : ℚ)/255) * (1 - av)) /
    (min (max av ((1 : ℚ)/1000000)) 1)) 1)

/-- Per-pixel result of the unmatte rewrite (lines 142–151): fringe pixels
get the inverse-composited RGB, all pixels are re-quantised. -/
def unmattePix (matte : ℕ × ℕ × ℕ) (img : PImage) (y x : ℤ) : Pix :=
  let p := img.px y x
  let av : ℚ := (p.a : ℚ) / 255
  if umFinalM matte img y x then
    { r := quantByte (umUnmatted matte.1 p.r av)
      g := quantByte (umUnmatted matte.2.1 p.g av)
      b := quantByte (umUnmatted matte.2.2 p.b av)
      a := quantByte av }
  else
    { r := quantByte ((p.r : ℚ)/255), g := quantByte ((p.g : ℚ)/255),
      b := quantByte ((p.b : ℚ)/255), a := quantByte av }

/-- `_unmatte_rgba` (lines 61–152): non-RGBA images pass through; if no
candidate fringe pixel or no true-fringe pixel exists the input object is
returned unchanged; otherwise the array is rewritten per `unmattePix`. -/
def unmatteRgba (matte : ℕ × ℕ × ℕ) (img : PImage) : PImage :=
  if img.hasAlpha = false then img
  else if anyCell img.height img.width (umPotentialM img) = false then img
  else if anyCell img.height img.width (umFinalM matte img) = false then img
  else { img with px := fun y x =>
          if (inB img.height img.width y x) then unmattePix matte img y x
          else img.px y x }

/-- White matte colour `#FFFFFF` (`png_matte` default, via `_hex_to_rgb`). -/
def whiteMatte : ℕ × ℕ × ℕ := (255, 255, 255)

/-- A 1×2 RGBA test image: an opaque black pixel next to a matte-coloured
pixel of alpha 51 (0.2): the right pixel is an anti-aliased fringe candidate
whose colour already equals the matte. -/
def fringePix : ℤ → ℤ → Pix := fun y x =>
  if y = 0 ∧ x = 0 then ⟨0, 0, 0, 255⟩
  else if y = 0 ∧ x = 1 then ⟨255, 255, 255, 51⟩
  else ⟨0, 0, 0, 0⟩

def fringeImg : PImage := ⟨2, 1, true, fringePix⟩

/-! ## Flood-fill background mask (`_compute_background_mask_rgb`, lines 154-249)

The source evaluates whiteness/blackness on a working image (a bilinear
downscale when the longest side exceeds 256, otherwise the image itself),
seeds a 4-connected breadth-first flood fill from every background-like
border pixel, and upscales the visited mask back with nearest-neighbour
sampling.  Everything the Python code computes itself (luminance, corner
statistics, thresholds, seed selection, the BFS) is embedded exactly; the
two resampling calls are the external PIL primitives.  A same-size
nearest-neighbour resize (the case `longest side <= 256`) is the identity. -/

abbrev Cell := ℤ × ℤ

/-- Per-pixel mean brightness `np.mean(arr[:, :, :3], axis=2)` (line 177). -/
def brightness (img : PImage) (y x : ℤ) : ℚ :=
  (((img.px y x).r : ℚ) + ((img.px y x).g : ℚ) + ((img.px y x).b : ℚ)) / 3

/-- Mean brightness over the half-open block `[y0,y1) x [x0,x1)`. -/
def blockMean (img : PImage) (y0 y1 x0 x1 : ℕ) : ℚ :=
  (((List.range (y1 - y0)).map fun dy =>
      (((List.range (x1 - x0)).map fun dx =>
        brightness img ((y0 : ℤ) + dy) ((x0 : ℤ) + dx)).sum)).sum) /
    (((y1 - y0) * (x1 - x0) : ℕ) : ℚ)

/-- Mean of the four 10x10 (clamped to the extent, as numpy slicing does)
corner-block brightnesses (lines 181-185). -/
def cornersMean (img : PImage) : ℚ :=
  let h := img.height
  let w := img.width
  let r := min 10 h
  let c := min 10 w
  (blockMean img 0 r 0 c + blockMean img 0 r (w - c) w +
   blockMean img (h - r) h 0 c + blockMean img (h - r) h (w - c) w) / 4

/-- The dynamically lowered white threshold (lines 190-203): when the corner
mean indicates a light background (`> 100`), the effective threshold is
`min(white_threshold, max(150, corners_mean - 15))`. -/
def effectiveWhiteThreshold (whiteThreshold : ℕ) (img : PImage) : ℚ :=
  if 100 < cornersMean img then
    min (whiteThreshold : ℚ) (max 150 (cornersMean img - 15))
  else (whiteThreshold : ℚ)

/-- `white_like = mean_brightness >= effective_white_threshold` (line 205). -/
def whiteLike (whiteThreshold : ℕ) (img : PImage) : ℤ → ℤ → Bool := fun y x =>
  inB img.height img.width y x &&
    decide (effectiveWhiteThreshold whiteThreshold img ≤ brightness img y x)

/-- `black_like = mean_brightness <= black_threshold` (line 206). -/
def blackLike (blackThreshold : ℕ) (img : PImage) : ℤ → ℤ → Bool := fun y x =>
  inB img.height img.width y x &&
    decide (brightness img y x ≤ (blackThreshold : ℚ))

/-- Count of true pixels on the four borders of a mask (lines 230-233);
corner pixels are counted twice, exactly as the source's four sums do. -/
def edgeCount (h w : ℕ) (m : ℤ → ℤ → Bool) : ℕ :=
  ((List.range w).filter fun x => m 0 (x : ℤ)).length +
  ((List.range w).filter fun x => m ((h : ℤ) - 1) (x : ℤ)).length +
  ((List.range h).filter fun y => m (y : ℤ) 0).length +
  ((List.range h).filter fun y => m (y : ℤ) ((w : ℤ) - 1)).length

inductive BgEdgeMode
  | auto
  | white
  | black
deriving DecidableEq

/-- Seed-mask selection per `background_edge_mode` (lines 224-234): explicit
white/black, or in auto mode whichever mask has at least as many true border
pixels (ties go to white: `white_count >= black_count`). -/
def chosenSeedMask (mode : BgEdgeMode) (whiteThr blackThr : ℕ) (img : PImage) :
    ℤ → ℤ → Bool :=
  match mode with
  | .white => whiteLike whiteThr img
  | .black => blackLike blackThr img
  | .auto =>
    if edgeCount img.height img.width (blackLike blackThr img) ≤
        edgeCount img.height img.width (whiteLike whiteThr img)
    then whiteLike whiteThr img else blackLike blackThr img

/-- The border cells enumerated by `enqueue_edge_seeds` (lines 211-221), in
source order: top and bottom of each column, then left and right of each
row. -/
def seedCandidates (h w : ℕ) : List Cell :=
  ((List.range w).flatMap fun x => [((0 : ℤ), (x : ℤ)), ((h : ℤ) - 1, (x : ℤ))]) ++
  ((List.range h).flatMap fun y => [((y : ℤ), (0 : ℤ)), ((y : ℤ), (w : ℤ) - 1)])

/-- One seed consideration: `if mask[c] and not visited[c]: mark and
enqueue`. -/
def seedStep (m : ℤ → ℤ → Bool) (st : Finset Cell × List Cell) (c : Cell) :
    Finset Cell × List Cell :=
  if m c.1 c.2 = true ∧ c ∉ st.1 then (insert c st.1, st.2 ++ [c]) else st

/-- Initial visited set and queue produced by `enqueue_edge_seeds`. -/
def initialSeeds (h w : ℕ) (m : ℤ → ℤ → Bool) : Finset Cell × List Cell :=
  (seedCandidates h w).foldl (seedStep m) (∅, [])

/-- One neighbour consideration inside the BFS loop (lines 239-246): the
bound check, the `not visited` check and the mask check, in source order;
on success the neighbour is marked visited and appended to the queue. -/
def tryAdd (m : ℤ → ℤ → Bool) (cond : Prop) [Decidable cond] (d : Cell)
    (st : Finset Cell × List Cell) : Finset Cell × List Cell :=
  if cond ∧ d ∉ st.1 ∧ m d.1 d.2 = true then (insert d st.1, st.2 ++ [d]) else st

/-- Processing of one popped cell `c = (y, x)`: the four neighbour
considerations `(y+1,x)`, `(y-1,x)`, `(y,x+1)`, `(y,x-1)` in source order,
each with exactly the source's bound check. -/
def bfsBody (h w : ℕ) (m : ℤ → ℤ → Bool) (st : Finset Cell × List Cell)
    (c : Cell) : Finset Cell × List Cell :=
  tryAdd m (0 ≤ c.2 - 1) (c.1, c.2 - 1)
    (tryAdd m (c.2 + 1 < (w : ℤ)) (c.1, c.2 + 1)
      (tryAdd m (0 ≤ c.1 - 1) (c.1 - 1, c.2)
        (tryAdd m (c.1 + 1 < (h : ℤ)) (c.1 + 1, c.2) st)))

/-- The `while q:` BFS loop (lines 237-246).  The fuel argument is an
embedding artifact: each iteration pops one queue element, and (proved
below) `2*h*w` fuel always suffices to drain the queue, so the fuelled
function computes the same visited set as the unbounded Python loop. -/
def bfsLoop (h w : ℕ) (m : ℤ → ℤ → Bool) : ℕ → Finset Cell → List Cell → Finset Cell
  | 0, v, _ => v
  | _ + 1, v, [] => v
  | n + 1, v, c :: rest =>
    let st := bfsBody h w m (v, rest) c
    bfsLoop h w m n st.1 st.2

/-- The visited set of the edge-seeded flood fill. -/
def floodVisited (h w : ℕ) (m : ℤ → ℤ → Bool) : Finset Cell :=
  bfsLoop h w m (h * w + h * w) (initialSeeds h w m).1 (initialSeeds h w m).2

/-- `_compute_background_mask_rgb` at working resolution: the visited set of
the flood fill over the chosen seed mask.  (The source then converts the
visited array to an `L` image, nearest-neighbour-resizes it to the original
extent — the identity when the image was not downscaled, i.e. longest side
at most 256 — and takes `> 0`.) -/
def computeBackgroundMaskRgb (mode : BgEdgeMode) (whiteThr blackThr : ℕ)
    (img : PImage) : ℤ → ℤ → Bool := fun y x =>
  decide ((y, x) ∈ floodVisited img.height img.width
    (chosenSeedMask mode whiteThr blackThr img))

/-! ### External PIL raster primitives

The pipeline calls four PIL primitives whose pixel content is outside the
embedded code: `Image.resize` with a filter, and `ImageFilter.GaussianBlur`.
They are parameters of the embedding; the only fact used about `resize` is
its documented contract that the result has the requested dimensions, which
`pilResize` enforces by construction. -/

inductive PilFilter
  | bilinear
  | nearest
  | lanczos
deriving DecidableEq

structure RasterOps where
  resample : PilFilter → PImage → ℕ → ℕ → PImage
  blur : ℚ → PImage → PImage

/-- `img.resize((w, h), filter)`: content from the external resampler,
dimensions and mode per the PIL contract. -/
def pilResize (ops : RasterOps) (ft : PilFilter) (img : PImage) (w h : ℕ) :
    PImage :=
  { width := w, height := h, hasAlpha := img.hasAlpha,
    px := (ops.resample ft img w h).px }

/-- A trivial instantiation of the external primitives, used for concrete
evaluations (their content never matters to any theorem). -/
def trivOps : RasterOps :=
  { resample := fun _ img _ _ => img, blur := fun _ img => img }

/-- `Image.fromarray(visited.astype(np.uint8) * 255)` (line 247): the
visited mask as an 8-bit image. -/
def maskToImage (h w : ℕ) (m : ℤ → ℤ → Bool) : PImage :=
  { width := w, height := h, hasAlpha := false,
    px := fun y x => if (m y x) then ⟨255, 255, 255, 255⟩ else ⟨0, 0, 0, 0⟩ }

/-- `_compute_background_mask_rgb` (lines 154–249) in full: images whose
longest side exceeds 256 are first downscaled with the external bilinear
resampler to `max(1, int(round(side * scale)))`, the working-resolution mask
is computed there, and the visited mask is nearest-neighbour-upscaled back
and compared `> 0`.  For images at most 256 on the longest side the working
image is the input itself and the final same-size nearest-neighbour resize
is the identity, so the function is the working-resolution mask. -/
def computeBackgroundMaskRgbFull (ops : RasterOps) (mode : BgEdgeMode)
    (wt bt : ℕ) (img : PImage) : ℤ → ℤ → Bool :=
  if max img.width img.height ≤ 256 then
    computeBackgroundMaskRgb mode wt bt img
  else
    let scale : ℚ := 256 / ((max img.width img.height : ℕ) : ℚ)
    let sw : ℕ := (max 1 (pyRound ((img.width : ℚ) * scale))).toNat
    let sh : ℕ := (max 1 (pyRound ((img.height : ℚ) * scale))).toNat
    let work := pilResize ops .bilinear img sw sh
    let vis := computeBackgroundMaskRgb mode wt bt work
    fun y x =>
      decide (0 < ((pilResize ops .nearest (maskToImage sh sw vis)
        img.width img.height).px y x).r)

/-! ### Reachability specification for the flood fill -/

/-- The cells of the `h x w` grid as a finite set. -/
def gridCells (h w : ℕ) : Finset Cell :=
  (Finset.range h ×ˢ Finset.range w).image fun p => ((p.1 : ℤ), (p.2 : ℤ))

/-- One 4-connected step, with exactly the source's bound checks. -/
def adjStep (h w : ℕ) (c d : Cell) : Prop :=
  (d = (c.1 + 1, c.2) ∧ c.1 + 1 < (h : ℤ)) ∨
  (d = (c.1 - 1, c.2) ∧ 0 ≤ c.1 - 1) ∨
  (d = (c.1, c.2 + 1) ∧ c.2 + 1 < (w : ℤ)) ∨
  (d = (c.1, c.2 - 1) ∧ 0 ≤ c.2 - 1)

/-- A border cell of the `h x w` grid. -/
def isBorderCell (h w : ℕ) (c : Cell) : Prop :=
  inB h w c.1 c.2 = true ∧
    (c.1 = 0 ∨ c.1 = (h : ℤ) - 1 ∨ c.2 = 0 ∨ c.2 = (w : ℤ) - 1)

instance (h w : ℕ) (c : Cell) : Decidable (isBorderCell h w c) :=
  inferInstanceAs (Decidable (_ ∧ _))

/-- Mask cells reachable from a mask border cell by 4-connected steps inside
the mask: the intended "background region" of the flood fill. -/
inductive ReachBg (h w : ℕ) (m : ℤ → ℤ → Bool) : Cell → Prop
  | seed (c : Cell) : isBorderCell h w c → m c.1 c.2 = true → ReachBg h w m c
  | step (c d : Cell) : ReachBg h w m c → adjStep h w c d → m d.1 d.2 = true →
      ReachBg h w m d

/-- Decidable form of "every border-ring pixel is in the seed class". -/
def borderAllSeed (h w : ℕ) (m : ℤ → ℤ → Bool) : Bool :=
  ((List.range w).all fun x => m 0 (x : ℤ) && m ((h : ℤ) - 1) (x : ℤ)) &&
  ((List.range h).all fun y => m (y : ℤ) 0 && m (y : ℤ) ((w : ℤ) - 1))

/-- Invariant bundle relating the state after some neighbour considerations
of the popped cell `c` to the state `(v, rest)` right after the pop: the
visited set only grew by mask neighbours of `c`, the queue grew by exactly
the fresh cells, and cardinalities track the queue length. -/
def BfsInv (h w : ℕ) (m : ℤ → ℤ → Bool) (c : Cell) (v : Finset Cell)
    (rest : List Cell) (st : Finset Cell × List Cell) : Prop :=
  v ⊆ st.1 ∧
  (∀ d ∈ st.1, d ∈ v ∨ (adjStep h w c d ∧ m d.1 d.2 = true)) ∧
  (∃ news, st.2 = rest ++ news ∧ news.Nodup ∧
    (∀ e ∈ news, e ∉ v ∧ e ∈ st.1) ∧ (∀ e ∈ st.1, e ∉ v → e ∈ news)) ∧
  v.card + st.2.length = st.1.card + rest.length ∧
  (c ∈ gridCells h w → v ⊆ gridCells h w → st.1 ⊆ gridCells h w)

/-- A uniform grey (128) 1x1 RGB image: one single-colour background pixel
filling the whole border ring. -/
def grayImg : PImage := ⟨1, 1, false, fun _ _ => ⟨128, 128, 128, 255⟩⟩

/-- A uniform white 2x2 RGB image. -/
def whiteImg : PImage := ⟨2, 2, false, fun _ _ => ⟨255, 255, 255, 255⟩⟩

/-! ## Processor configuration (`UniversalProcessor.__init__`, lines 17-55)

Only the fields the compositor, mask builder and encoder read are modelled;
hex colour strings are carried as their parsed RGB triples (`_hex_to_rgb`;
the default background `#F3F3F3` is `(243, 243, 243)`). -/

inductive CenterMode
  | bboxCenter
  | centroid
deriving DecidableEq

structure Config where
  targetWidth : ℕ := 400
  targetHeight : ℕ := 400
  quality : ℤ := 98
  minQuality : ℤ := 65
  targetMaxKb : Option ℕ := none
  backgroundColor : ℕ × ℕ × ℕ := (243, 243, 243)
  whiteThreshold : ℕ := 240
  blackThreshold : ℕ := 15
  productSizeRatio : ℚ := 3/4
  alphaThreshold : ℕ := 5
  centerMode : CenterMode := CenterMode.bboxCenter
  minMarginRatio : ℚ := 1/20
  softEdges : Bool := true
  softEdgesRadius : ℚ := 1
  pngEdgeFix : Bool := true
  pngMatte : ℕ × ℕ × ℕ := (255, 255, 255)
  backgroundEdgeMode : BgEdgeMode := BgEdgeMode.auto

def defaultConfig : Config := {}

/-! ## Product mask and bounding box (`_compute_product_mask`,
`find_product_bbox`, lines 251-280) -/

/-- `_compute_product_mask`: the alpha-threshold mask for images carrying a
transparency band, the inverted flood-fill background mask otherwise. -/
def computeProductMask (ops : RasterOps) (cfg : Config) (img : PImage) :
    ℤ → ℤ → Bool :=
  if img.hasAlpha then fun y x => decide (cfg.alphaThreshold < (img.px y x).a)
  else fun y x =>
    ! computeBackgroundMaskRgbFull ops cfg.backgroundEdgeMode
        cfg.whiteThreshold cfg.blackThreshold img y x

/-- `rows = np.any(mask, axis=1)` (line 268). -/
def rowAny (w : ℕ) (m : ℤ → ℤ → Bool) (y : ℕ) : Bool :=
  (List.range w).any fun x => m (y : ℤ) (x : ℤ)

/-- `cols = np.any(mask, axis=0)` (line 269). -/
def colAny (h : ℕ) (m : ℤ → ℤ → Bool) (x : ℕ) : Bool :=
  (List.range h).any fun y => m (y : ℤ) (x : ℤ)

/-- `np.where(v)[0][0]`: index of the first true entry. -/
def firstIdx (n : ℕ) (p : ℕ → Bool) : Option ℕ := (List.range n).find? p

/-- `np.where(v)[0][-1]`: index of the last true entry. -/
def lastIdx (n : ℕ) (p : ℕ → Bool) : Option ℕ := (List.range n).reverse.find? p

/-- `find_product_bbox` (lines 262-280): `None` when the mask is empty,
otherwise the first/last true row and column expanded by 10 px padding and
clamped to the image extent, as `(x1, y1, x2, y2)`. -/
def findProductBbox (ops : RasterOps) (cfg : Config) (img : PImage) :
    Option (ℤ × ℤ × ℤ × ℤ) :=
  let m := computeProductMask ops cfg img
  if anyCell img.height img.width m = false then none
  else
    match firstIdx img.height (rowAny img.width m),
        lastIdx img.height (rowAny img.width m),
        firstIdx img.width (colAny img.height m),
        lastIdx img.width (colAny img.height m) with
    | some y1, some y2, some x1, some x2 =>
      some (max 0 ((x1 : ℤ) - 10), max 0 ((y1 : ℤ) - 10),
            min (img.width : ℤ) ((x2 : ℤ) + 10),
            min (img.height : ℤ) ((y2 : ℤ) + 10))
    | _, _, _, _ => none

/-! ## Compositor (`smart_resize_and_center`, lines 282-385) -/

/-- `img.crop((x1, y1, x2, y2))`: dimensions `(x2-x1) x (y2-y1)` per the PIL
contract, content shifted. -/
def pilCrop (img : PImage) (x1 y1 x2 y2 : ℤ) : PImage :=
  { width := (x2 - x1).toNat, height := (y2 - y1).toNat,
    hasAlpha := img.hasAlpha, px := fun y x => img.px (y + y1) (x + x1) }

/-- `Image.new('RGB', (w, h), bg)` (line 291). -/
def newRGB (w h : ℕ) (color : ℕ × ℕ × ℕ) : PImage :=
  { width := w, height := h, hasAlpha := false,
    px := fun _ _ => ⟨color.1, color.2.1, color.2.2, 255⟩ }

/-- `img.convert('RGB')`: drops the alpha band. -/
def convertRGB (img : PImage) : PImage := { img with hasAlpha := false }

/-- Per-pixel linear interpolation of PIL's `paste` with an 8-bit mask. -/
def blendPix (dst src : Pix) (mv : ℕ) : Pix :=
  ⟨(src.r * mv + dst.r * (255 - mv)) / 255,
   (src.g * mv + dst.g * (255 - mv)) / 255,
   (src.b * mv + dst.b * (255 - mv)) / 255, dst.a⟩

/-- `canvas.paste(src, (px, py))` without a mask (line 379): in-place
overlay, canvas dimensions and mode unchanged. -/
def pasteOpaque (canvas src : PImage) (px0 py0 : ℤ) : PImage :=
  { canvas with px := fun y x =>
      (if py0 ≤ y ∧ y < py0 + src.height ∧ px0 ≤ x ∧ x < px0 + src.width then
        src.px (y - py0) (x - px0)
      else canvas.px y x) }

/-- `canvas.paste(src, (px, py), mask)` (line 356): in-place masked blend,
canvas dimensions and mode unchanged. -/
def pasteMasked (canvas src mask : PImage) (px0 py0 : ℤ) : PImage :=
  { canvas with px := fun y x =>
      (if py0 ≤ y ∧ y < py0 + src.height ∧ px0 ≤ x ∧ x < px0 + src.width then
        blendPix (canvas.px y x) (src.px (y - py0) (x - px0))
          ((mask.px (y - py0) (x - px0)).r)
      else canvas.px y x) }

/-- The cropped product after the optional unmatte pass (lines 299-303). -/
def croppedProduct (cfg : Config) (img : PImage) (x1 y1 x2 y2 : ℤ) : PImage :=
  let cropped0 := pilCrop img x1 y1 x2 y2
  if cropped0.hasAlpha = true ∧ cfg.pngEdgeFix = true then
    unmatteRgba cfg.pngMatte cropped0
  else cropped0

/-- Number of true cells of an `h x w` mask (`ys.size` of `np.where`). -/
def maskCount (h w : ℕ) (m : ℤ → ℤ → Bool) : ℕ :=
  (((List.range h).map fun y =>
    ((List.range w).filter fun x => m (y : ℤ) (x : ℤ)).length)).sum

/-- Sum of the column indices of true cells (for `xs.mean()`). -/
def maskSumX (h w : ℕ) (m : ℤ → ℤ → Bool) : ℚ :=
  (((List.range h).map fun y =>
    ((((List.range w).filter fun x => m (y : ℤ) (x : ℤ)).map
      fun x => (x : ℚ))).sum)).sum

/-- Sum of the row indices of true cells (for `ys.mean()`). -/
def maskSumY (h w : ℕ) (m : ℤ → ℤ → Bool) : ℚ :=
  (((List.range h).map fun y =>
    (((List.range w).filter fun x => m (y : ℤ) (x : ℤ)).length : ℚ) * (y : ℚ))).sum

/-- The placement arithmetic of the bounding-box branch (lines 305-353):
margins, target product size, uniform scale, resized dimensions, centring
and the clamped paste offset. -/
structure Placement where
  marginX : ℤ
  marginY : ℤ
  newWidth : ℤ
  newHeight : ℤ
  pasteX : ℤ
  pasteY : ℤ

/-- `margin_x = int(round(target_width * min_margin_ratio))` (line 309). -/
def pMarginX (cfg : Config) : ℤ := pyRound ((cfg.targetWidth : ℚ) * cfg.minMarginRatio)

/-- `margin_y = int(round(target_height * min_margin_ratio))` (line 310). -/
def pMarginY (cfg : Config) : ℤ := pyRound ((cfg.targetHeight : ℚ) * cfg.minMarginRatio)

/-- `target_product_width = int(target_width * product_size_ratio)` (line 311). -/
def pTargetW (cfg : Config) : ℤ := pyTrunc ((cfg.targetWidth : ℚ) * cfg.productSizeRatio)

/-- `target_product_height = int(target_height * product_size_ratio)` (line 312). -/
def pTargetH (cfg : Config) : ℤ := pyTrunc ((cfg.targetHeight : ℚ) * cfg.productSizeRatio)

/-- `scale = min(scale_x, scale_y)` (lines 313-315). -/
def pScale (cfg : Config) (pw ph : ℤ) : ℚ :=
  min (((min (pTargetW cfg) ((cfg.targetWidth : ℤ) - 2 * pMarginX cfg) : ℤ) : ℚ) / (pw : ℚ))
    (((min (pTargetH cfg) ((cfg.targetHeight : ℤ) - 2 * pMarginY cfg) : ℤ) : ℚ) / (ph : ℚ))

/-- `new_width = max(1, int(product_width * scale))` (line 316). -/
def pNewWidth (cfg : Config) (pw ph : ℤ) : ℤ :=
  max 1 (pyTrunc ((pw : ℚ) * pScale cfg pw ph))

/-- `new_height = max(1, int(product_height * scale))` (line 317). -/
def pNewHeight (cfg : Config) (pw ph : ℤ) : ℤ :=
  max 1 (pyTrunc ((ph : ℚ) * pScale cfg pw ph))

/-- Placement centre `(center_x, center_y)` (lines 334-347): the resized
geometric centre in bbox mode, or the mask centroid scaled by the same
factor in centroid mode (falling back to the geometric centre on an empty
mask). -/
def pCenter (ops : RasterOps) (cfg : Config) (img : PImage)
    (x1 y1 x2 y2 : ℤ) : ℚ × ℚ :=
  let pw := x2 - x1
  let ph := y2 - y1
  let cropped := croppedProduct cfg img x1 y1 x2 y2
  let maskSmall := computeProductMask ops cfg cropped
  match cfg.centerMode with
  | CenterMode.centroid =>
    if 0 < maskCount cropped.height cropped.width maskSmall then
      ((maskSumX cropped.height cropped.width maskSmall /
          (maskCount cropped.height cropped.width maskSmall : ℚ)) *
        pScale cfg pw ph,
       (maskSumY cropped.height cropped.width maskSmall /
          (maskCount cropped.height cropped.width maskSmall : ℚ)) *
        pScale cfg pw ph)
    else ((pNewWidth cfg pw ph : ℚ) / 2, (pNewHeight cfg pw ph : ℚ) / 2)
  | CenterMode.bboxCenter =>
    ((pNewWidth cfg pw ph : ℚ) / 2, (pNewHeight cfg pw ph : ℚ) / 2)

/-- `paste_x` after clamping (lines 350-352). -/
def pPasteX (ops : RasterOps) (cfg : Config) (img : PImage)
    (x1 y1 x2 y2 : ℤ) : ℤ :=
  max (pMarginX cfg)
    (min (pyRound ((cfg.targetWidth : ℚ) / 2 - (pCenter ops cfg img x1 y1 x2 y2).1))
      ((cfg.targetWidth : ℤ) - pMarginX cfg - pNewWidth cfg (x2 - x1) (y2 - y1)))

/-- `paste_y` after clamping (lines 351-353). -/
def pPasteY (ops : RasterOps) (cfg : Config) (img : PImage)
    (x1 y1 x2 y2 : ℤ) : ℤ :=
  max (pMarginY cfg)
    (min (pyRound ((cfg.targetHeight : ℚ) / 2 - (pCenter ops cfg img x1 y1 x2 y2).2))
      ((cfg.targetHeight : ℤ) - pMarginY cfg - pNewHeight cfg (x2 - x1) (y2 - y1)))

def computePlacement (ops : RasterOps) (cfg : Config) (img : PImage)
    (x1 y1 x2 y2 : ℤ) : Placement :=
  ⟨pMarginX cfg, pMarginY cfg,
   pNewWidth cfg (x2 - x1) (y2 - y1), pNewHeight cfg (x2 - x1) (y2 - y1),
   pPasteX ops cfg img x1 y1 x2 y2, pPasteY ops cfg img x1 y1 x2 y2⟩

/-- The bounding-box branch of the compositor (lines 295-359).  A zero
product width or height would raise `ZeroDivisionError`, caught by the
`except` which returns the input image; that guard is proved unreachable. -/
def bboxComposite (ops : RasterOps) (cfg : Config) (img : PImage)
    (x1 y1 x2 y2 : ℤ) : PImage :=
  if x2 - x1 ≤ 0 ∨ y2 - y1 ≤ 0 then img
  else
    let P := computePlacement ops cfg img x1 y1 x2 y2
    let cropped := croppedProduct cfg img x1 y1 x2 y2
    let maskSmall := computeProductMask ops cfg cropped
    let resizedProduct :=
      pilResize ops PilFilter.lanczos cropped P.newWidth.toNat P.newHeight.toNat
    let maskImg :=
      if cropped.hasAlpha then
        { width := cropped.width, height := cropped.height, hasAlpha := false,
          px := fun y x =>
            ⟨(cropped.px y x).a, (cropped.px y x).a, (cropped.px y x).a, 255⟩ }
      else maskToImage cropped.height cropped.width maskSmall
    let resizedMask0 :=
      pilResize ops PilFilter.lanczos maskImg P.newWidth.toNat P.newHeight.toNat
    let resizedMask :=
      if cfg.softEdges = true ∧ 0 < cfg.softEdgesRadius then
        ops.blur cfg.softEdgesRadius resizedMask0
      else resizedMask0
    pasteMasked (newRGB cfg.targetWidth cfg.targetHeight cfg.backgroundColor)
      (convertRGB resizedProduct) resizedMask P.pasteX P.pasteY

/-- The no-bounding-box cover-crop fallback (lines 361-379): resize so the
image covers the canvas on the constraining axis, centre-crop the overflow
axis, paste centred.  A zero image height/width or zero canvas height would
raise `ZeroDivisionError`, caught by the `except` which returns the input
image. -/
def coverCropFallback (ops : RasterOps) (cfg : Config) (img : PImage) : PImage :=
  if img.height = 0 ∨ cfg.targetHeight = 0 then img
  else
    let imgRatio : ℚ := (img.width : ℚ) / (img.height : ℚ)
    let targetRatio : ℚ := (cfg.targetWidth : ℚ) / (cfg.targetHeight : ℚ)
    if targetRatio < imgRatio then
      let newWidth := pyTrunc ((cfg.targetHeight : ℚ) * imgRatio)
      let resized := pilResize ops PilFilter.lanczos img newWidth.toNat cfg.targetHeight
      let left := Int.fdiv (newWidth - (cfg.targetWidth : ℤ)) 2
      let cropped := pilCrop resized left 0 (left + (cfg.targetWidth : ℤ))
        (cfg.targetHeight : ℤ)
      pasteOpaque (newRGB cfg.targetWidth cfg.targetHeight cfg.backgroundColor)
        cropped (Int.fdiv ((cfg.targetWidth : ℤ) - cropped.width) 2)
        (Int.fdiv ((cfg.targetHeight : ℤ) - cropped.height) 2)
    else
      if img.width = 0 then img
      else
        let newHeight := pyTrunc ((cfg.targetWidth : ℚ) / imgRatio)
        let resized := pilResize ops PilFilter.lanczos img cfg.targetWidth newHeight.toNat
        let top := Int.fdiv (newHeight - (cfg.targetHeight : ℤ)) 2
        let cropped := pilCrop resized 0 top (cfg.targetWidth : ℤ)
          (top + (cfg.targetHeight : ℤ))
        pasteOpaque (newRGB cfg.targetWidth cfg.targetHeight cfg.backgroundColor)
          cropped (Int.fdiv ((cfg.targetWidth : ℤ) - cropped.width) 2)
          (Int.fdiv ((cfg.targetHeight : ℤ) - cropped.height) 2)

/-- `smart_resize_and_center` (lines 282-385). -/
def smartResizeAndCenter (ops : RasterOps) (cfg : Config) (img : PImage) :
    PImage :=
  match findProductBbox ops cfg img with
  | some (x1, y1, x2, y2) => bboxComposite ops cfg img x1 y1 x2 y2
  | none => coverCropFallback ops cfg img

/-- A 1x1 fully opaque RGBA test image. -/
def opaqueDot : PImage := ⟨1, 1, true, fun _ _ => ⟨100, 100, 100, 255⟩⟩

/-- A degenerate canvas configuration: 2x2 canvas with a 50% margin ratio on
each side, leaving no room between the margins. -/
def tinyCfg : Config := { targetWidth := 2, targetHeight := 2, minMarginRatio := 1/2 }

/-- A 1x1 RGBA image whose alpha is identically zero. -/
def zeroAlphaImg : PImage := ⟨1, 1, true, fun _ _ => ⟨7, 7, 7, 0⟩⟩

/-! ## Lemmas and theorems -/
/-- Truncation never exceeds an integer upper bound of the argument
(used for `int(product_width * scale) <= target - 2*margin`). -/
theorem pyTrunc_le_intBound {q : ℚ} {B : ℤ} (hB : 0 ≤ B) (h : q ≤ (B : ℚ)) :
    pyTrunc q ≤ B := by
  unfold pyTrunc
  split
  · calc ⌊q⌋ ≤ ⌊(B : ℚ)⌋ := Int.floor_le_floor h
      _ = B := Int.floor_intCast B
  · rename_i hq
    have : -⌊-q⌋ ≤ 0 := by
      have : (0:ℚ) ≤ -q := by linarith [lt_of_not_le hq]
      have := Int.floor_nonneg.mpr this
      omega
    omega

section EncoderLemmas

variable (f : ℤ → ℕ) (t : ℕ) (minQ : ℤ)

theorem stepQuality_lt (q : ℤ) : stepQuality q < q := by
  unfold stepQuality; split_ifs <;> omega

theorem encodeTrace_length_le (q : ℤ) (n : ℕ) :
    (encodeTrace f t minQ q n).length ≤ n := by
  induction n generalizing q with
  | zero => simp [encodeTrace]
  | succ n ih =>
    simp only [encodeTrace]
    split
    · simp
    · simpa using ih (stepQuality q)

theorem encodeTrace_ne_nil (q : ℤ) (n : ℕ) (hn : 0 < n) :
    encodeTrace f t minQ q n ≠ [] := by
  cases n with
  | zero => omega
  | succ n => simp [encodeTrace]

theorem encodeTrace_head (q : ℤ) (n : ℕ) (hn : 0 < n) :
    (encodeTrace f t minQ q n).head? = some q := by
  cases n with
  | zero => omega
  | succ n => simp [encodeTrace]

/-- Consecutive tried qualities follow the decrement schedule. -/
theorem encodeTrace_chain (q : ℤ) (n : ℕ) :
    List.Chain' (fun a b => b = stepQuality a ∧ b < a)
      (encodeTrace f t minQ q n) := by
  induction n generalizing q with
  | zero => simp [encodeTrace]
  | succ n ih =>
    simp only [encodeTrace]
    split
    · simp
    · rcases n with _ | n
      · simp [encodeTrace]
      · rw [List.chain'_cons']
        refine ⟨?_, ih (stepQuality q)⟩
        intro b hb
        rw [encodeTrace_head f t minQ (stepQuality q) (n+1) (by omega)] at hb
        simp only [Option.mem_def, Option.some.injEq] at hb
        subst hb
        exact ⟨rfl, stepQuality_lt q⟩

/-- Every iteration before the last one failed the stop test. -/
theorem encodeTrace_no_early_stop (q : ℤ) (n : ℕ) :
    ∀ i qi, (encodeTrace f t minQ q n).get? i = some qi →
      i + 1 < (encodeTrace f t minQ q n).length → ¬ encStop f t minQ qi := by
  induction n generalizing q with
  | zero => simp [encodeTrace]
  | succ n ih =>
    intro i qi hget hlt
    simp only [encodeTrace] at hget hlt
    by_cases hstop : encStop f t minQ q
    · rw [if_pos hstop] at hlt
      simp only [List.length_cons, List.length_nil] at hlt
      exact absurd hlt (by omega)
    · simp only [if_neg hstop] at hget hlt
      cases i with
      | zero => simp at hget; cases hget; exact hstop
      | succ i =>
        simp only [List.get?_cons_succ, List.length_cons] at hget hlt
        exact ih (stepQuality q) i qi hget (by omega)

/-- For a nonempty list, `getLastD` does not depend on the default. -/
theorem getLastD_congr {α : Type} (l : List α) (d d' : α) (h : l ≠ []) :
    l.getLastD d = l.getLastD d' := by
  cases l with
  | nil => exact absurd rfl h
  | cons a l => rw [List.getLastD_cons, List.getLastD_cons]

/-- The last tried quality either satisfies the stop condition or the
iteration cap was reached. -/
theorem encodeTrace_last (q : ℤ) (n : ℕ) (hn : 0 < n) :
    encStop f t minQ ((encodeTrace f t minQ q n).getLastD q) ∨
      (encodeTrace f t minQ q n).length = n := by
  induction n generalizing q with
  | zero => omega
  | succ n ih =>
    simp only [encodeTrace]
    by_cases hstop : encStop f t minQ q
    · simp [hstop]
    · simp only [if_neg hstop]
      rcases n with _ | n
      · right; simp [encodeTrace]
      · rcases ih (stepQuality q) (by omega) with h | h
        · left
          have hne := encodeTrace_ne_nil f t minQ (stepQuality q) (n+1) (by omega)
          rw [List.getLastD_cons]
          rwa [getLastD_congr _ (stepQuality q) q hne] at h
        · right; simp [h]

/-- The kept quality is the last element of the trace. -/
theorem adaptiveLoop_eq_getLastD (q best : ℤ) (n : ℕ) (hn : 0 < n) :
    adaptiveLoop f t minQ q best n = (encodeTrace f t minQ q n).getLastD best := by
  induction n generalizing q best with
  | zero => omega
  | succ n ih =>
    simp only [adaptiveLoop, encodeTrace]
    by_cases hstop : encStop f t minQ q
    · simp [hstop]
    · simp only [if_neg hstop]
      rcases n with _ | n
      · simp [adaptiveLoop, encodeTrace]
      · rw [ih (stepQuality q) q (by omega), List.getLastD_cons]

/-- Every quality in the trace is at least `min q0 (minQ - 6)`: the loop only
decrements while strictly above the floor, and a single decrement is at most
7. -/
theorem encodeTrace_lower_bound (q : ℤ) (n : ℕ) :
    ∀ qi ∈ encodeTrace f t minQ q n, min q (minQ - 6) ≤ qi := by
  induction n generalizing q with
  | zero => simp [encodeTrace]
  | succ n ih =>
    intro qi hqi
    simp only [encodeTrace] at hqi
    by_cases hstop : encStop f t minQ q
    · simp [hstop] at hqi
      omega
    · simp only [if_neg hstop, List.mem_cons] at hqi
      rcases hqi with rfl | hqi
      · omega
      · have h1 := ih (stepQuality q) qi hqi
        have h2 : ¬ q ≤ minQ := fun h => hstop (Or.inr h)
        have h3 : minQ - 6 ≤ stepQuality q := by
          unfold stepQuality; split_ifs <;> omega
        have h4 : min (stepQuality q) (minQ - 6) = minQ - 6 := by omega
        rw [h4] at h1
        omega

theorem encodeTrace_getLastD_mem (q d : ℤ) (n : ℕ) (hn : 0 < n) :
    (encodeTrace f t minQ q n).getLastD d ∈ encodeTrace f t minQ q n := by
  have hne := encodeTrace_ne_nil f t minQ q n hn
  rw [List.getLastD_eq_getLast?, List.getLast?_eq_getLast _ hne]
  exact List.getLast_mem hne

end EncoderLemmas

theorem anyCell_iff (h w : ℕ) (m : ℤ → ℤ → Bool) :
    anyCell h w m = true ↔ ∃ y x : ℤ, inB h w y x = true ∧ m y x = true := by
  unfold anyCell
  simp only [List.any_eq_true, List.mem_range]
  constructor
  · rintro ⟨y, hy, x, hx, hm⟩
    exact ⟨y, x, by simp [inB]; omega, hm⟩
  · rintro ⟨y, x, hb, hm⟩
    obtain ⟨h1, h2, h3, h4⟩ := by simpa [inB] using hb
    refine ⟨y.toNat, by omega, x.toNat, by omega, ?_⟩
    rwa [Int.toNat_of_nonneg h1, Int.toNat_of_nonneg h3]

/-- Re-quantisation is the identity on stored channel bytes. -/
theorem quantByte_roundtrip (b : ℕ) : quantByte ((b : ℚ)/255) = b := by
  unfold quantByte
  have h1 : ((b : ℚ)/255) * 255 + 1/2 = 1/2 + ((b : ℤ) : ℚ) := by push_cast; ring
  rw [h1, Int.floor_add_int]
  norm_num

/-- The final unmatte mask is confined to the image extent. -/
theorem umFinalM_inB {matte : ℕ × ℕ × ℕ} {img : PImage} {y x : ℤ}
    (h : umFinalM matte img y x = true) : inB img.height img.width y x = true := by
  by_cases hb : inB img.height img.width y x = true
  · exact hb
  · exfalso
    have hb' : inB img.height img.width y x = false := by
      simpa using hb
    simp [umFinalM, umPotentialM, umEdgeM, umAntiM, umLowAlphaM, dilate, hb'] at h


/-- A mask holding somewhere in bounds makes `np.any` true. -/
theorem anyCell_of_mem {h w : ℕ} {m : ℤ → ℤ → Bool} {y x : ℤ}
    (hm : m y x = true) (hb : inB h w y x = true) : anyCell h w m = true :=
  (anyCell_iff h w m).mpr ⟨y, x, hb, hm⟩

/-- The final unmatte mask refines the candidate fringe mask. -/
theorem umFinalM_potential {matte : ℕ × ℕ × ℕ} {img : PImage} {y x : ℤ}
    (h : umFinalM matte img y x = true) : umPotentialM img y x = true := by
  simp only [umFinalM, Bool.and_eq_true] at h
  exact h.1

/-- Pointwise characterisation of `_unmatte_rgba`: a pixel in the final
unmatte mask is rewritten to the re-quantised alpha-compositing inverse with
its alpha byte unchanged; every other pixel (and every pixel of a non-RGBA
or fringe-free image) passes through unchanged. -/
theorem unmatteRgba_px_spec (matte : ℕ × ℕ × ℕ) (img : PImage) (y x : ℤ) :
    (unmatteRgba matte img).px y x =
      if img.hasAlpha = true ∧ umFinalM matte img y x = true then
        { r := quantByte (umUnmatted matte.1 (img.px y x).r (((img.px y x).a : ℚ)/255))
          g := quantByte (umUnmatted matte.2.1 (img.px y x).g (((img.px y x).a : ℚ)/255))
          b := quantByte (umUnmatted matte.2.2 (img.px y x).b (((img.px y x).a : ℚ)/255))
          a := (img.px y x).a }
      else img.px y x := by
  unfold unmatteRgba
  by_cases hA : img.hasAlpha = false
  · rw [if_pos hA, if_neg (by simp [hA])]
  · rw [if_neg hA]
    have hA' : img.hasAlpha = true := by simpa using hA
    by_cases h1 : anyCell img.height img.width (umPotentialM img) = false
    · rw [if_pos h1]
      have hm : ¬ umFinalM matte img y x = true := by
        intro hf
        have := anyCell_of_mem (umFinalM_potential hf) (umFinalM_inB hf)
        rw [h1] at this
        exact Bool.false_ne_true this
      rw [if_neg (by tauto)]
    · rw [if_neg h1]
      by_cases h2 : anyCell img.height img.width (umFinalM matte img) = false
      · rw [if_pos h2]
        have hm : ¬ umFinalM matte img y x = true := by
          intro hf
          have := anyCell_of_mem hf (umFinalM_inB hf)
          rw [h2] at this
          exact Bool.false_ne_true this
        rw [if_neg (by tauto)]
      · rw [if_neg h2]
        show (if (inB img.height img.width y x) then unmattePix matte img y x
              else img.px y x) = _
        by_cases hf : umFinalM matte img y x = true
        · rw [if_pos (umFinalM_inB hf), if_pos ⟨hA', hf⟩]
          simp only [unmattePix, if_pos hf]
          rw [quantByte_roundtrip]
        · rw [if_neg (show ¬(img.hasAlpha = true ∧ umFinalM matte img y x = true)
            from fun hc => hf hc.2)]
          by_cases hb : inB img.height img.width y x = true
          · rw [if_pos hb]
            simp only [unmattePix, if_neg hf]
            rw [quantByte_roundtrip, quantByte_roundtrip, quantByte_roundtrip,
              quantByte_roundtrip]
          · rw [if_neg hb]

/-- Unfolding lemma for one adaptive-encoder iteration. -/
theorem encodeTrace_succ_unfold (f : ℤ → ℕ) (t : ℕ) (minQ q : ℤ) (n : ℕ)
    (h : ¬ encStop f t minQ q) :
    encodeTrace f t minQ q (n + 1) =
      q :: encodeTrace f t minQ (stepQuality q) n := by
  simp only [encodeTrace]
  rw [if_neg h]

/-- Unfolding lemma for a stopping adaptive-encoder iteration. -/
theorem encodeTrace_succ_stop (f : ℤ → ℕ) (t : ℕ) (minQ q : ℤ) (n : ℕ)
    (h : encStop f t minQ q) :
    encodeTrace f t minQ q (n + 1) = [q] := by
  simp only [encodeTrace]
  rw [if_pos h]

/-- C3 (amended): the adaptive encoder performs at most 10 encode
iterations; the first tried quality is the base quality; across iterations
the tried quality strictly decreases following the schedule (−7 above 85,
−5 above 75, else −3); every iteration before the last fails the stop test
(size above budget and quality above the floor); the last iteration passes
the stop test or the 10-iteration cap was reached; the kept result is the
last tried quality; and with no `target_max_kb` configured the stage encodes
exactly once at the base quality.  (Byte-size monotonicity across iterations
is NOT guaranteed by the code: it is a property of the external codec; see
the counterexample.) -/
theorem claim_C3_amended (f : ℤ → ℕ) (t : ℕ) (minQ q0 : ℤ) :
    (encodeTrace f t minQ q0 10).length ≤ 10 ∧
    (encodeTrace f t minQ q0 10).head? = some q0 ∧
    List.Chain' (fun a b => b = stepQuality a ∧ b < a) (encodeTrace f t minQ q0 10) ∧
    (∀ i qi, (encodeTrace f t minQ q0 10).get? i = some qi →
      i + 1 < (encodeTrace f t minQ q0 10).length → ¬ encStop f t minQ qi) ∧
    (encStop f t minQ ((encodeTrace f t minQ q0 10).getLastD q0) ∨
      (encodeTrace f t minQ q0 10).length = 10) ∧
    keptQuality f t minQ q0 = (encodeTrace f t minQ q0 10).getLastD q0 ∧
    encodeQualities f none minQ q0 = [q0] :=
  ⟨encodeTrace_length_le f t minQ q0 10,
   encodeTrace_head f t minQ q0 10 (by omega),
   encodeTrace_chain f t minQ q0 10,
   encodeTrace_no_early_stop f t minQ q0 10,
   encodeTrace_last f t minQ q0 10 (by omega),
   adaptiveLoop_eq_getLastD f t minQ q0 q0 10 (by omega),
   rfl⟩

/-- C3 witness: a concrete run of the amended claim. -/
theorem claim_C3_witness :
    (encodeTrace (fun _ => 0) 1 60 95 10).length ≤ 10 :=
  (claim_C3_amended (fun _ => 0) 1 60 95).1

/-- C3 counterexample: the spec's byte-size monotonicity fails on the code —
with a codec whose output grows once quality decreases (204800 bytes at
quality 95, 307200 bytes at every other quality; target 50 KB, floor 60,
base 95), the recorded sizes are not non-increasing across iterations,
although quality decreased. -/
theorem claim_C3_counterexample :
    (encodeTrace (fun q => if q = 95 then 204800 else 307200) 50 60 95 10).get? 0 =
      some 95 ∧
    (encodeTrace (fun q => if q = 95 then 204800 else 307200) 50 60 95 10).get? 1 =
      some 88 ∧
    ∃ i a b,
      (sizeTrace (fun q => if q = 95 then 204800 else 307200) 50 60 95).get? i =
        some a ∧
      (sizeTrace (fun q => if q = 95 then 204800 else 307200) 50 60 95).get? (i+1) =
        some b ∧ a < b :=
  ⟨by decide, by decide, 0, 204800, 307200, by decide, by decide, by decide⟩

/-- C4 (amended): with `target_max_kb = 50`, base quality 95 and
`min_quality = 60`, for any image whose encodes all exceed 50 KB the
successive qualities tried are exactly 95, 88, 81, 76, 71, 68, 65, 62, 59:
the step from 81 is −5 (81 ≤ 85), not −7 as the spec's list implies, and the
loop stops only after encoding at 59, the first quality at or below the
floor; that below-floor encode is the kept result. -/
theorem claim_C4_amended (f : ℤ → ℕ) (hf : ∀ q, 51200 < f q) :
    encodeTrace f 50 60 95 10 = [95, 88, 81, 76, 71, 68, 65, 62, 59] ∧
    keptQuality f 50 60 95 = 59 := by
  have hs : ∀ q : ℤ, encStop f 50 60 q ↔ q ≤ 60 := by
    intro q
    unfold encStop
    constructor
    · rintro (h | h)
      · exact absurd h (by have := hf (max 1 q); omega)
      · exact h
    · exact Or.inr
  have h95 : ¬ encStop f 50 60 95 := by rw [hs]; omega
  have h88 : ¬ encStop f 50 60 88 := by rw [hs]; omega
  have h81 : ¬ encStop f 50 60 81 := by rw [hs]; omega
  have h76 : ¬ encStop f 50 60 76 := by rw [hs]; omega
  have h71 : ¬ encStop f 50 60 71 := by rw [hs]; omega
  have h68 : ¬ encStop f 50 60 68 := by rw [hs]; omega
  have h65 : ¬ encStop f 50 60 65 := by rw [hs]; omega
  have h62 : ¬ encStop f 50 60 62 := by rw [hs]; omega
  have h59 : encStop f 50 60 59 := by rw [hs]; omega
  have htr : encodeTrace f 50 60 95 10 = [95, 88, 81, 76, 71, 68, 65, 62, 59] := by
    rw [show (10 : ℕ) = 9 + 1 from rfl, encodeTrace_succ_unfold f 50 60 95 9 h95,
      show stepQuality 95 = 88 by decide,
      show (9 : ℕ) = 8 + 1 from rfl, encodeTrace_succ_unfold f 50 60 88 8 h88,
      show stepQuality 88 = 81 by decide,
      show (8 : ℕ) = 7 + 1 from rfl, encodeTrace_succ_unfold f 50 60 81 7 h81,
      show stepQuality 81 = 76 by decide,
      show (7 : ℕ) = 6 + 1 from rfl, encodeTrace_succ_unfold f 50 60 76 6 h76,
      show stepQuality 76 = 71 by decide,
      show (6 : ℕ) = 5 + 1 from rfl, encodeTrace_succ_unfold f 50 60 71 5 h71,
      show stepQuality 71 = 68 by decide,
      show (5 : ℕ) = 4 + 1 from rfl, encodeTrace_succ_unfold f 50 60 68 4 h68,
      show stepQuality 68 = 65 by decide,
      show (4 : ℕ) = 3 + 1 from rfl, encodeTrace_succ_unfold f 50 60 65 3 h65,
      show stepQuality 65 = 62 by decide,
      show (3 : ℕ) = 2 + 1 from rfl, encodeTrace_succ_unfold f 50 60 62 2 h62,
      show stepQuality 62 = 59 by decide,
      show (2 : ℕ) = 1 + 1 from rfl, encodeTrace_succ_stop f 50 60 59 1 h59]
  refine ⟨htr, ?_⟩
  rw [keptQuality, adaptiveLoop_eq_getLastD f 50 60 95 95 10 (by omega), htr]
  rfl

/-- C4 witness: a concrete codec exceeding the budget at every quality. -/
theorem claim_C4_witness :
    encodeTrace (fun _ => 51201) 50 60 95 10 = [95, 88, 81, 76, 71, 68, 65, 62, 59] ∧
    keptQuality (fun _ => 51201) 50 60 95 = 59 :=
  claim_C4_amended (fun _ => 51201) (fun _ => by show (51200 : ℕ) < 51201; omega)

/-- C4 counterexample: the sequence of tried qualities claimed by the spec
(95, 88, 81, 74, 71, 68, 65, 62) differs from what the code computes — after
81 the schedule subtracts 5 (81 ≤ 85), giving 76, and the loop goes on to
encode at 59 before stopping. -/
theorem claim_C4_counterexample :
    encodeTrace (fun _ => 204800) 50 60 95 10 = [95, 88, 81, 76, 71, 68, 65, 62, 59] ∧
    encodeTrace (fun _ => 204800) 50 60 95 10 ≠ [95, 88, 81, 74, 71, 68, 65, 62] := by
  refine ⟨by decide, by decide⟩

/-- C10 (amended): the kept quality of the adaptive encode is always at
least `min(base_quality, min_quality − 6)` (the floor test runs only after
encoding, and one decrement is at most 7); the quality passed to the codec
is clamped to at least 1; and the kept quality can be strictly below
`min_quality`: a below-floor encode is performed and kept. -/
theorem claim_C10_amended (f : ℤ → ℕ) (t : ℕ) (minQ q0 : ℤ) :
    min q0 (minQ - 6) ≤ keptQuality f t minQ q0 ∧
    (∀ q ∈ encodeTrace f t minQ q0 10, 1 ≤ max 1 q) ∧
    (∃ g : ℤ → ℕ, keptQuality g 50 60 95 < 60) := by
  refine ⟨?_, fun q _ => le_max_left 1 q, ⟨fun _ => 51201, by decide⟩⟩
  rw [keptQuality, adaptiveLoop_eq_getLastD f t minQ q0 q0 10 (by omega)]
  exact encodeTrace_lower_bound f t minQ q0 10 _
    (encodeTrace_getLastD_mem f t minQ q0 q0 10 (by omega))

/-- C10 witness: a concrete instance of the kept-quality lower bound. -/
theorem claim_C10_witness :
    min 95 (60 - 6) ≤ keptQuality (fun _ => 0) 50 (60 : ℤ) 95 :=
  (claim_C10_amended (fun _ => 0) 50 60 95).1

/-- C10 counterexample: with base quality 50 and `min_quality = 65`, the
very first encode already satisfies `quality <= min_quality` and is kept, so
the final quality is 50, strictly below `min_quality − 6 = 59` — the claimed
unconditional bound `final >= min_quality − 6` is false. -/
theorem claim_C10_counterexample :
    keptQuality (fun _ => 999999) 50 65 50 = 50 ∧ ¬ ((65 : ℤ) - 6 ≤ 50) := by
  refine ⟨by decide, by decide⟩

/-- C9: `_unmatte_rgba` never changes the alpha channel — the output alpha
equals the input alpha pixel-for-pixel — and when no candidate fringe pixel
or no true-fringe pixel exists the input image is returned unchanged. -/
theorem claim_C9 (matte : ℕ × ℕ × ℕ) (img : PImage) :
    (∀ y x : ℤ, ((unmatteRgba matte img).px y x).a = (img.px y x).a) ∧
    (anyCell img.height img.width (umPotentialM img) = false →
      unmatteRgba matte img = img) ∧
    (anyCell img.height img.width (umFinalM matte img) = false →
      unmatteRgba matte img = img) := by
  refine ⟨fun y x => ?_, fun h => ?_, fun h => ?_⟩
  · rw [unmatteRgba_px_spec]
    split
    · rfl
    · rfl
  · unfold unmatteRgba
    by_cases hA : img.hasAlpha = false
    · rw [if_pos hA]
    · rw [if_neg hA, if_pos h]
  · unfold unmatteRgba
    by_cases hA : img.hasAlpha = false
    · rw [if_pos hA]
    · rw [if_neg hA]
      by_cases h1 : anyCell img.height img.width (umPotentialM img) = false
      · rw [if_pos h1]
      · rw [if_neg h1, if_pos h]

/-- C9 witness: alpha preservation on a concrete fringe image. -/
theorem claim_C9_witness :
    ((unmatteRgba whiteMatte fringeImg).px 0 1).a = (fringeImg.px 0 1).a :=
  (claim_C9 whiteMatte fringeImg).1 0 1

/-- C7 (amended): `_unmatte_rgba` rewrites a pixel's RGB exactly on the true
fringe region — the candidate mask (2-dilation of the transparent region
minus opaque/transparent pixels, or low-alpha pixels 1-adjacent to an opaque
pixel) intersected with normalised RGB distance to the matte below 0.35 —
where it stores the re-quantised clamp of
`(observed_rgb − matte_rgb·(1 − alpha)) / clip(alpha, 1e-6, 1)`, leaving the
alpha byte unchanged; every pixel outside that region passes through with
unchanged RGB.  Hence a pixel is modified ONLY IF it lies in the region; the
converse of the spec's "if and only if" fails, because a region pixel whose
RGB already equals the matte-compensated value is rewritten to its original
bytes (see the counterexample). -/
theorem claim_C7_amended (matte : ℕ × ℕ × ℕ) (img : PImage) (y x : ℤ)
    (hA : img.hasAlpha = true) :
    ((unmatteRgba matte img).px y x ≠ img.px y x → umFinalM matte img y x = true) ∧
    (unmatteRgba matte img).px y x =
      (if umFinalM matte img y x = true then
        { r := quantByte (umUnmatted matte.1 (img.px y x).r (((img.px y x).a : ℚ)/255))
          g := quantByte (umUnmatted matte.2.1 (img.px y x).g (((img.px y x).a : ℚ)/255))
          b := quantByte (umUnmatted matte.2.2 (img.px y x).b (((img.px y x).a : ℚ)/255))
          a := (img.px y x).a }
      else img.px y x) := by
  constructor
  · intro hne
    by_contra hf
    apply hne
    rw [unmatteRgba_px_spec, if_neg (fun hc => hf hc.2)]
  · rw [unmatteRgba_px_spec]
    by_cases hf : umFinalM matte img y x = true
    · rw [if_pos ⟨hA, hf⟩, if_pos hf]
    · rw [if_neg (fun hc => hf hc.2), if_neg hf]

/-- C7 witness: the amended claim instantiated on the fringe test image. -/
theorem claim_C7_witness :
    ((unmatteRgba whiteMatte fringeImg).px 0 0 ≠ fringeImg.px 0 0 →
      umFinalM whiteMatte fringeImg 0 0 = true) ∧
    (unmatteRgba whiteMatte fringeImg).px 0 0 =
      (if umFinalM whiteMatte fringeImg 0 0 = true then
        { r := quantByte (umUnmatted whiteMatte.1 (fringeImg.px 0 0).r
            (((fringeImg.px 0 0).a : ℚ)/255))
          g := quantByte (umUnmatted whiteMatte.2.1 (fringeImg.px 0 0).g
            (((fringeImg.px 0 0).a : ℚ)/255))
          b := quantByte (umUnmatted whiteMatte.2.2 (fringeImg.px 0 0).b
            (((fringeImg.px 0 0).a : ℚ)/255))
          a := (fringeImg.px 0 0).a }
      else fringeImg.px 0 0) :=
  claim_C7_amended whiteMatte fringeImg 0 0 rfl

/-- C7 counterexample: on a 1×2 RGBA image (opaque black pixel beside a
matte-white pixel with alpha 0.2) the right-hand pixel lies in the true
fringe region, yet its RGB is not modified — the compensated value equals
its original bytes — refuting "modifies if and only if in the region". -/
theorem claim_C7_counterexample :
    umFinalM whiteMatte fringeImg 0 1 = true ∧
    (unmatteRgba whiteMatte fringeImg).px 0 1 = fringeImg.px 0 1 := by
  refine ⟨by with_unfolding_all decide, by with_unfolding_all decide⟩

/-! ### Flood-fill BFS correctness -/

theorem mem_gridCells {h w : ℕ} {c : Cell} :
    c ∈ gridCells h w ↔ inB h w c.1 c.2 = true := by
  rcases c with ⟨y, x⟩
  unfold gridCells inB
  simp only [Finset.mem_image, Finset.mem_product, Finset.mem_range,
    Prod.mk.injEq, decide_eq_true_eq, Prod.exists]
  constructor
  · rintro ⟨a, b, ⟨ha, hb⟩, rfl, rfl⟩
    refine ⟨by omega, by omega, by omega, by omega⟩
  · rintro ⟨h1, h2, h3, h4⟩
    exact ⟨y.toNat, x.toNat, ⟨by omega, by omega⟩, by omega, by omega⟩

theorem card_gridCells_le (h w : ℕ) : (gridCells h w).card ≤ h * w := by
  unfold gridCells
  calc (((Finset.range h) ×ˢ (Finset.range w)).image _).card
      ≤ ((Finset.range h) ×ˢ (Finset.range w)).card := Finset.card_image_le
    _ = h * w := by simp

theorem tryAdd_cases (m : ℤ → ℤ → Bool) (cond : Prop) [Decidable cond]
    (d : Cell) (st : Finset Cell × List Cell) :
    (tryAdd m cond d st = st ∧ ¬(cond ∧ d ∉ st.1 ∧ m d.1 d.2 = true)) ∨
    (tryAdd m cond d st = (insert d st.1, st.2 ++ [d]) ∧
      cond ∧ d ∉ st.1 ∧ m d.1 d.2 = true) := by
  unfold tryAdd
  split_ifs with hc
  · right; exact ⟨rfl, hc⟩
  · left; exact ⟨rfl, hc⟩

theorem tryAdd_mono (m : ℤ → ℤ → Bool) (cond : Prop) [Decidable cond]
    (d : Cell) (st : Finset Cell × List Cell) :
    st.1 ⊆ (tryAdd m cond d st).1 := by
  rcases tryAdd_cases m cond d st with ⟨he, -⟩ | ⟨he, -⟩
  · simp [he]
  · rw [he]
    exact Finset.subset_insert d st.1

theorem tryAdd_mem_self (m : ℤ → ℤ → Bool) (cond : Prop) [Decidable cond]
    (d : Cell) (st : Finset Cell × List Cell) (hc : cond)
    (hm : m d.1 d.2 = true) : d ∈ (tryAdd m cond d st).1 := by
  rcases tryAdd_cases m cond d st with ⟨he, hn⟩ | ⟨he, -⟩ <;> rw [he]
  · by_cases hd : d ∈ st.1
    · exact hd
    · exact absurd ⟨hc, hd, hm⟩ hn
  · exact Finset.mem_insert_self d st.1

theorem bfsInv_init (h w : ℕ) (m : ℤ → ℤ → Bool) (c : Cell)
    (v : Finset Cell) (rest : List Cell) : BfsInv h w m c v rest (v, rest) :=
  ⟨Finset.Subset.refl _, fun d hd => Or.inl hd,
   ⟨[], by simp, List.nodup_nil, by simp, fun e he hev => absurd he hev⟩,
   by simp, fun _ hv => hv⟩

theorem tryAdd_bfsInv {h w : ℕ} {m : ℤ → ℤ → Bool} {c : Cell}
    {v : Finset Cell} {rest : List Cell} (cond : Prop) [Decidable cond]
    (d : Cell) {st : Finset Cell × List Cell}
    (hd : cond → adjStep h w c d ∧ (c ∈ gridCells h w → d ∈ gridCells h w))
    (hinv : BfsInv h w m c v rest st) :
    BfsInv h w m c v rest (tryAdd m cond d st) := by
  rcases tryAdd_cases m cond d st with ⟨he, -⟩ | ⟨he, hc, hdv, hm⟩
  · rwa [he]
  · obtain ⟨hsub, hsound, ⟨news, hq, hnd, hnews, hnew2⟩, hcard, hgrid⟩ := hinv
    rw [he]
    refine ⟨hsub.trans (Finset.subset_insert d st.1), ?_, ?_, ?_, ?_⟩
    · intro e he'
      rcases Finset.mem_insert.mp he' with rfl | he'
      · exact Or.inr ⟨(hd hc).1, hm⟩
      · exact hsound e he'
    · refine ⟨news ++ [d], by rw [hq, List.append_assoc], ?_, ?_, ?_⟩
      · rw [List.nodup_append]
        refine ⟨hnd, List.nodup_singleton d, ?_⟩
        intro e he1 he2
        rw [List.mem_singleton] at he2
        subst he2
        exact hdv (hnews e he1).2
      · intro e he'
        rcases List.mem_append.mp he' with he' | he'
        · exact ⟨(hnews e he').1, Finset.mem_insert_of_mem (hnews e he').2⟩
        · rw [List.mem_singleton] at he'
          rw [he']
          exact ⟨fun hev => hdv (hsub hev), Finset.mem_insert_self d st.1⟩
      · intro e he' hev
        rcases Finset.mem_insert.mp he' with rfl | he'
        · exact List.mem_append.mpr (Or.inr (List.mem_singleton.mpr rfl))
        · exact List.mem_append.mpr (Or.inl (hnew2 e he' hev))
    · have h1 : (st.2 ++ [d]).length = st.2.length + 1 := by simp
      have h2 : (insert d st.1).card = st.1.card + 1 :=
        Finset.card_insert_of_not_mem hdv
      simp only [h1, h2]
      omega
    · intro hcg hvg
      refine Finset.insert_subset_iff.mpr ⟨(hd hc).2 hcg, hgrid hcg hvg⟩

theorem bfsBody_bfsInv (h w : ℕ) (m : ℤ → ℤ → Bool) (c : Cell)
    (v : Finset Cell) (rest : List Cell) :
    BfsInv h w m c v rest (bfsBody h w m (v, rest) c) := by
  unfold bfsBody
  refine tryAdd_bfsInv _ _ ?_ (tryAdd_bfsInv _ _ ?_ (tryAdd_bfsInv _ _ ?_
    (tryAdd_bfsInv _ _ ?_ (bfsInv_init h w m c v rest))))
  · intro hc
    refine ⟨Or.inr (Or.inr (Or.inr ⟨rfl, hc⟩)), fun hcg => ?_⟩
    have := mem_gridCells.mp hcg
    rw [inB, decide_eq_true_eq] at this
    exact mem_gridCells.mpr (by rw [inB, decide_eq_true_eq]; omega)
  · intro hc
    refine ⟨Or.inr (Or.inr (Or.inl ⟨rfl, hc⟩)), fun hcg => ?_⟩
    have := mem_gridCells.mp hcg
    rw [inB, decide_eq_true_eq] at this
    exact mem_gridCells.mpr (by rw [inB, decide_eq_true_eq]; omega)
  · intro hc
    refine ⟨Or.inr (Or.inl ⟨rfl, hc⟩), fun hcg => ?_⟩
    have := mem_gridCells.mp hcg
    rw [inB, decide_eq_true_eq] at this
    exact mem_gridCells.mpr (by rw [inB, decide_eq_true_eq]; omega)
  · intro hc
    refine ⟨Or.inl ⟨rfl, hc⟩, fun hcg => ?_⟩
    have := mem_gridCells.mp hcg
    rw [inB, decide_eq_true_eq] at this
    exact mem_gridCells.mpr (by rw [inB, decide_eq_true_eq]; omega)

/-- After processing a popped cell, every mask neighbour of it is visited. -/
theorem bfsBody_closed (h w : ℕ) (m : ℤ → ℤ → Bool) (c : Cell)
    (v : Finset Cell) (rest : List Cell) :
    ∀ d, adjStep h w c d → m d.1 d.2 = true →
      d ∈ (bfsBody h w m (v, rest) c).1 := by
  intro d hadj hm
  unfold bfsBody
  rcases hadj with ⟨rfl, hc⟩ | ⟨rfl, hc⟩ | ⟨rfl, hc⟩ | ⟨rfl, hc⟩
  · exact tryAdd_mono _ _ _ _ (tryAdd_mono _ _ _ _ (tryAdd_mono _ _ _ _
      (tryAdd_mem_self _ _ _ _ hc hm)))
  · exact tryAdd_mono _ _ _ _ (tryAdd_mono _ _ _ _
      (tryAdd_mem_self _ _ _ _ hc hm))
  · exact tryAdd_mono _ _ _ _ (tryAdd_mem_self _ _ _ _ hc hm)
  · exact tryAdd_mem_self _ _ _ _ hc hm

theorem bfsLoop_mono (h w : ℕ) (m : ℤ → ℤ → Bool) :
    ∀ (n : ℕ) (v : Finset Cell) (q : List Cell), v ⊆ bfsLoop h w m n v q := by
  intro n
  induction n with
  | zero => intro v q; exact Finset.Subset.refl v
  | succ n ih =>
    intro v q
    cases q with
    | nil => exact Finset.Subset.refl v
    | cons c rest =>
      show v ⊆ bfsLoop h w m n (bfsBody h w m (v, rest) c).1
        (bfsBody h w m (v, rest) c).2
      exact (bfsBody_bfsInv h w m c v rest).1.trans
        (ih (bfsBody h w m (v, rest) c).1 (bfsBody h w m (v, rest) c).2)

theorem bfsLoop_sound (h w : ℕ) (m : ℤ → ℤ → Bool) :
    ∀ (n : ℕ) (v : Finset Cell) (q : List Cell),
      (∀ d ∈ v, ReachBg h w m d) → (∀ d ∈ q, d ∈ v) →
      ∀ d ∈ bfsLoop h w m n v q, ReachBg h w m d := by
  intro n
  induction n with
  | zero => intro v q hv _ d hd; exact hv d hd
  | succ n ih =>
    intro v q hv hq d hd
    cases q with
    | nil => exact hv d hd
    | cons c rest =>
      obtain ⟨hsub, hsound, ⟨news, hqeq, -, hnews, -⟩, -, -⟩ :=
        bfsBody_bfsInv h w m c v rest
      refine ih (bfsBody h w m (v, rest) c).1 (bfsBody h w m (v, rest) c).2
        ?_ ?_ d hd
      · intro e he
        rcases hsound e he with he' | ⟨hadj, hm⟩
        · exact hv e he'
        · exact ReachBg.step c e (hv c (hq c (List.mem_cons_self c rest))) hadj hm
      · intro e he
        rw [hqeq] at he
        rcases List.mem_append.mp he with he | he
        · exact hsub (hq e (List.mem_cons_of_mem c he))
        · exact (hnews e he).2

theorem bfsLoop_complete (h w : ℕ) (m : ℤ → ℤ → Bool) :
    ∀ (n : ℕ) (v : Finset Cell) (q : List Cell),
      (∀ d ∈ q, d ∈ v) → q.Nodup → v ⊆ gridCells h w →
      (∀ d ∈ v, d ∉ q → ∀ e, adjStep h w d e → m e.1 e.2 = true → e ∈ v) →
      (h * w - v.card) + q.length ≤ n →
      ∀ d ∈ bfsLoop h w m n v q, ∀ e, adjStep h w d e → m e.1 e.2 = true →
        e ∈ bfsLoop h w m n v q := by
  intro n
  induction n with
  | zero =>
    intro v q hq hnd hg hcl hfuel d hd e hadj hm
    have hcard : v.card ≤ h * w := (Finset.card_le_card hg).trans (card_gridCells_le h w)
    have hq0 : q = [] := List.length_eq_zero.mp (by omega)
    subst hq0
    exact hcl d hd (List.not_mem_nil d) e hadj hm
  | succ n ih =>
    intro v q hq hnd hg hcl hfuel
    cases q with
    | nil =>
      intro d hd e hadj hm
      exact hcl d hd (List.not_mem_nil d) e hadj hm
    | cons c rest =>
      obtain ⟨hsub, hsound, ⟨news, hqeq, hndnews, hnews, hnew2⟩, hcard, hgrid⟩ :=
        bfsBody_bfsInv h w m c v rest
      have hcg : c ∈ gridCells h w := hg (hq c (List.mem_cons_self c rest))
      have hg' := hgrid hcg hg
      have hrest : ∀ d ∈ rest, d ∈ v := fun d hd => hq d (List.mem_cons_of_mem c hd)
      have hq' : ∀ d ∈ (bfsBody h w m (v, rest) c).2, d ∈ (bfsBody h w m (v, rest) c).1 := by
        intro d hd
        rw [hqeq] at hd
        rcases List.mem_append.mp hd with hd | hd
        · exact hsub (hrest d hd)
        · exact (hnews d hd).2
      have hnd' : (bfsBody h w m (v, rest) c).2.Nodup := by
        rw [hqeq, List.nodup_append]
        refine ⟨(List.nodup_cons.mp hnd).2, hndnews, ?_⟩
        intro e he1 he2
        exact (hnews e he2).1 (hrest e he1)
      have hcl' : ∀ d ∈ (bfsBody h w m (v, rest) c).1,
          d ∉ (bfsBody h w m (v, rest) c).2 →
          ∀ e, adjStep h w d e → m e.1 e.2 = true →
            e ∈ (bfsBody h w m (v, rest) c).1 := by
        intro d hd hdq e hadj hm
        by_cases hdc : d = c
        · subst hdc
          exact bfsBody_closed h w m d v rest e hadj hm
        · have hdv : d ∈ v := by
            rcases (Finset.mem_coe.mpr hd : d ∈ (bfsBody h w m (v, rest) c).1) with _
            by_contra hdv
            exact hdq (by rw [hqeq]; exact List.mem_append.mpr (Or.inr (hnew2 d hd hdv)))
          have hdrest : d ∉ rest := fun hmem => hdq (by
            rw [hqeq]; exact List.mem_append.mpr (Or.inl hmem))
          have : d ∉ c :: rest := by
            intro hmem
            rcases List.mem_cons.mp hmem with rfl | hmem
            · exact hdc rfl
            · exact hdrest hmem
          exact hsub (hcl d hdv this e hadj hm)
      have hfuel' : (h * w - (bfsBody h w m (v, rest) c).1.card) +
          (bfsBody h w m (v, rest) c).2.length ≤ n := by
        have h1 : v.card ≤ (bfsBody h w m (v, rest) c).1.card :=
          Finset.card_le_card hsub
        have h2 : (bfsBody h w m (v, rest) c).1.card ≤ h * w :=
          (Finset.card_le_card hg').trans (card_gridCells_le h w)
        have h3 : (c :: rest).length = rest.length + 1 := by simp
        rw [h3] at hfuel
        omega
      show ∀ d ∈ bfsLoop h w m n (bfsBody h w m (v, rest) c).1
          (bfsBody h w m (v, rest) c).2, _
      exact ih (bfsBody h w m (v, rest) c).1 (bfsBody h w m (v, rest) c).2
        hq' hnd' hg' hcl' hfuel'

theorem seedFold_spec (m : ℤ → ℤ → Bool) :
    ∀ (cs : List Cell) (v : Finset Cell) (q : List Cell),
      (∀ c, c ∈ q ↔ c ∈ v) → q.Nodup →
      (∀ c, c ∈ (cs.foldl (seedStep m) (v, q)).1 ↔
        (c ∈ v ∨ (c ∈ cs ∧ m c.1 c.2 = true))) ∧
      (∀ c, c ∈ (cs.foldl (seedStep m) (v, q)).2 ↔
        c ∈ (cs.foldl (seedStep m) (v, q)).1) ∧
      (cs.foldl (seedStep m) (v, q)).2.Nodup := by
  intro cs
  induction cs with
  | nil =>
    intro v q hq hnd
    refine ⟨fun c => ?_, fun c => ?_, hnd⟩
    · simp
    · simpa using hq c
  | cons c cs ih =>
    intro v q hq hnd
    rw [List.foldl_cons]
    by_cases hc : m c.1 c.2 = true ∧ c ∉ v
    · have hstep : seedStep m (v, q) c = (insert c v, q ++ [c]) := by
        unfold seedStep
        rw [if_pos hc]
      rw [hstep]
      have hq' : ∀ d, d ∈ q ++ [c] ↔ d ∈ insert c v := by
        intro d
        rw [List.mem_append, List.mem_singleton, Finset.mem_insert, hq d]
        tauto
      have hnd' : (q ++ [c]).Nodup := by
        rw [List.nodup_append]
        refine ⟨hnd, List.nodup_singleton c, ?_⟩
        intro e he1 he2
        rw [List.mem_singleton] at he2
        rw [he2] at he1
        exact hc.2 ((hq c).mp he1)
      obtain ⟨g1, g2, g3⟩ := ih (insert c v) (q ++ [c]) hq' hnd'
      refine ⟨fun d => ?_, g2, g3⟩
      rw [g1 d, Finset.mem_insert, List.mem_cons]
      by_cases hdc : d = c
      · subst hdc
        simp [hc.1]
      · tauto
    · have hstep : seedStep m (v, q) c = (v, q) := by
        unfold seedStep
        rw [if_neg hc]
      rw [hstep]
      obtain ⟨g1, g2, g3⟩ := ih v q hq hnd
      refine ⟨fun d => ?_, g2, g3⟩
      rw [g1 d, List.mem_cons]
      constructor
      · tauto
      · rintro (hd | ⟨(rfl | hd), hm⟩)
        · exact Or.inl hd
        · rcases Classical.em (d ∈ v) with hv | hv
          · exact Or.inl hv
          · exact absurd ⟨hm, hv⟩ hc
        · exact Or.inr ⟨hd, hm⟩

theorem mem_seedCandidates {h w : ℕ} (hh : 1 ≤ h) (hw : 1 ≤ w) (c : Cell) :
    c ∈ seedCandidates h w ↔ isBorderCell h w c := by
  rcases c with ⟨y, x⟩
  unfold seedCandidates isBorderCell inB
  simp only [List.mem_append, List.mem_flatMap, List.mem_range, List.mem_cons,
    List.not_mem_nil, or_false, Prod.mk.injEq, decide_eq_true_eq]
  constructor
  · rintro (⟨x', hx', ⟨rfl, rfl⟩ | ⟨rfl, rfl⟩⟩ | ⟨y', hy', ⟨rfl, rfl⟩ | ⟨rfl, rfl⟩⟩)
    · exact ⟨⟨by omega, by omega, by omega, by omega⟩, by omega⟩
    · exact ⟨⟨by omega, by omega, by omega, by omega⟩, by omega⟩
    · exact ⟨⟨by omega, by omega, by omega, by omega⟩, by omega⟩
    · exact ⟨⟨by omega, by omega, by omega, by omega⟩, by omega⟩
  · rintro ⟨⟨h1, h2, h3, h4⟩, (rfl | hb | rfl | hb)⟩
    · exact Or.inl ⟨x.toNat, by omega, Or.inl ⟨rfl, by omega⟩⟩
    · exact Or.inl ⟨x.toNat, by omega, Or.inr ⟨by omega, by omega⟩⟩
    · exact Or.inr ⟨y.toNat, by omega, Or.inl ⟨by omega, rfl⟩⟩
    · exact Or.inr ⟨y.toNat, by omega, Or.inr ⟨by omega, by omega⟩⟩

/-- Every cell the flood fill reaches is in the seed mask. -/
theorem ReachBg_mask {h w : ℕ} {m : ℤ → ℤ → Bool} {c : Cell}
    (hr : ReachBg h w m c) : m c.1 c.2 = true := by
  cases hr with
  | seed _ _ hm => exact hm
  | step _ _ _ _ hm => exact hm

/-- Every cell the flood fill reaches is inside the grid. -/
theorem ReachBg_inB {h w : ℕ} {m : ℤ → ℤ → Bool} {c : Cell}
    (hr : ReachBg h w m c) : inB h w c.1 c.2 = true := by
  induction hr with
  | seed c hb _ => exact hb.1
  | step c d _ hadj _ ih =>
    rw [inB, decide_eq_true_eq] at ih ⊢
    rcases hadj with ⟨rfl, hc⟩ | ⟨rfl, hc⟩ | ⟨rfl, hc⟩ | ⟨rfl, hc⟩ <;>
      simp only at * <;> omega

/-- The BFS visited set is exactly the set of seed-mask cells 4-connected to
a border seed: the flood fill computes the edge-connected background
region. -/
theorem floodVisited_iff {h w : ℕ} (hh : 1 ≤ h) (hw : 1 ≤ w)
    (m : ℤ → ℤ → Bool) (c : Cell) :
    c ∈ floodVisited h w m ↔ ReachBg h w m c := by
  obtain ⟨g1, g2, g3⟩ := seedFold_spec m (seedCandidates h w) ∅ []
    (by simp) List.nodup_nil
  have g1' : ∀ d, d ∈ (initialSeeds h w m).1 ↔
      (d ∈ (∅ : Finset Cell) ∨ (d ∈ seedCandidates h w ∧ m d.1 d.2 = true)) := g1
  have g2' : ∀ d, d ∈ (initialSeeds h w m).2 ↔ d ∈ (initialSeeds h w m).1 := g2
  have g3' : (initialSeeds h w m).2.Nodup := g3
  have hv0 : ∀ d, d ∈ (initialSeeds h w m).1 ↔
      (isBorderCell h w d ∧ m d.1 d.2 = true) := by
    intro d
    rw [g1' d, mem_seedCandidates hh hw d]
    simp
  have hq0 : ∀ d ∈ (initialSeeds h w m).2, d ∈ (initialSeeds h w m).1 :=
    fun d hd => (g2' d).mp hd
  have hg0 : (initialSeeds h w m).1 ⊆ gridCells h w := by
    intro d hd
    exact mem_gridCells.mpr ((hv0 d).mp hd).1.1
  constructor
  · intro hc
    refine bfsLoop_sound h w m (h * w + h * w) (initialSeeds h w m).1
      (initialSeeds h w m).2 ?_ hq0 c hc
    intro d hd
    obtain ⟨hb, hm⟩ := (hv0 d).mp hd
    exact ReachBg.seed d hb hm
  · intro hr
    have hlen : (initialSeeds h w m).2.length = (initialSeeds h w m).1.card := by
      have ht : (initialSeeds h w m).2.toFinset = (initialSeeds h w m).1 := by
        apply Finset.ext
        intro d
        rw [List.mem_toFinset]
        exact ⟨fun hd => (g2' d).mp hd, fun hd => (g2' d).mpr hd⟩
      rw [← ht, List.toFinset_card_of_nodup g3']
    have hfuel : (h * w - (initialSeeds h w m).1.card) +
        (initialSeeds h w m).2.length ≤ h * w + h * w := by
      have := (Finset.card_le_card hg0).trans (card_gridCells_le h w)
      omega
    have hcl0 : ∀ d ∈ (initialSeeds h w m).1, d ∉ (initialSeeds h w m).2 →
        ∀ e, adjStep h w d e → m e.1 e.2 = true → e ∈ (initialSeeds h w m).1 := by
      intro d hd hdq
      exact absurd ((g2' d).mpr hd) hdq
    have hclosed := bfsLoop_complete h w m (h * w + h * w)
      (initialSeeds h w m).1 (initialSeeds h w m).2 hq0 g3' hg0 hcl0 hfuel
    induction hr with
    | seed d hb hm =>
      exact bfsLoop_mono h w m (h * w + h * w) (initialSeeds h w m).1
        (initialSeeds h w m).2 ((hv0 d).mpr ⟨hb, hm⟩)
    | step d e hr hadj hm ih =>
      exact hclosed d ih e hadj hm

/-- With every border-ring pixel in the seed class, the flood fill's seeds
are exactly the border cells. -/
theorem borderAllSeed_spec {h w : ℕ} {m : ℤ → ℤ → Bool}
    (hall : borderAllSeed h w m = true) :
    ∀ c : Cell, isBorderCell h w c → m c.1 c.2 = true := by
  rintro ⟨y, x⟩ ⟨hin, hb⟩
  rw [inB, decide_eq_true_eq] at hin
  obtain ⟨h1, h2, h3, h4⟩ := hin
  rw [borderAllSeed, Bool.and_eq_true, List.all_eq_true, List.all_eq_true] at hall
  obtain ⟨hrow, hcol⟩ := hall
  rcases hb with rfl | rfl | rfl | rfl
  · have hx := hrow x.toNat (by rw [List.mem_range]; omega)
    rw [Bool.and_eq_true, show ((x.toNat : ℕ) : ℤ) = x by omega] at hx
    exact hx.1
  · have hx := hrow x.toNat (by rw [List.mem_range]; omega)
    rw [Bool.and_eq_true, show ((x.toNat : ℕ) : ℤ) = x by omega] at hx
    exact hx.2
  · have hy := hcol y.toNat (by rw [List.mem_range]; omega)
    rw [Bool.and_eq_true, show ((y.toNat : ℕ) : ℤ) = y by omega] at hy
    exact hy.1
  · have hy := hcol y.toNat (by rw [List.mem_range]; omega)
    rw [Bool.and_eq_true, show ((y.toNat : ℕ) : ℤ) = y by omega] at hy
    exact hy.2

/-- For images at most 256 px on the longest side, the full background-mask
routine is the working-resolution computation (the same-size
nearest-neighbour resize is the identity). -/
theorem bgFull_small (ops : RasterOps) (mode : BgEdgeMode) (wt bt : ℕ)
    (img : PImage) (hsz : max img.width img.height ≤ 256) :
    computeBackgroundMaskRgbFull ops mode wt bt img =
      computeBackgroundMaskRgb mode wt bt img := by
  unfold computeBackgroundMaskRgbFull
  rw [if_pos hsz]

/-- C8 (amended): for every RGB image processed at native resolution
(longest side at most 256) whose border-ring pixels are all classified
background-like by the chosen seed mask, the flood-fill background mask
equals exactly the set of background-like pixels 4-connected to the border
ring; in particular no pixel outside the seed class (such as a contrasting
product) is ever included, and the whole border ring is included. -/
theorem claim_C8_amended (ops : RasterOps) (mode : BgEdgeMode) (wt bt : ℕ)
    (img : PImage) (hh : 1 ≤ img.height) (hw : 1 ≤ img.width)
    (hsz : max img.width img.height ≤ 256)
    (hborder : borderAllSeed img.height img.width
      (chosenSeedMask mode wt bt img) = true) :
    (∀ y x : ℤ, computeBackgroundMaskRgbFull ops mode wt bt img y x = true ↔
      ReachBg img.height img.width (chosenSeedMask mode wt bt img) (y, x)) ∧
    (∀ y x : ℤ, chosenSeedMask mode wt bt img y x = false →
      computeBackgroundMaskRgbFull ops mode wt bt img y x = false) ∧
    (∀ c : Cell, isBorderCell img.height img.width c →
      computeBackgroundMaskRgbFull ops mode wt bt img c.1 c.2 = true) := by
  rw [bgFull_small ops mode wt bt img hsz]
  have hiff : ∀ y x : ℤ, computeBackgroundMaskRgb mode wt bt img y x = true ↔
      ReachBg img.height img.width (chosenSeedMask mode wt bt img) (y, x) := by
    intro y x
    simp only [computeBackgroundMaskRgb, decide_eq_true_eq]
    exact floodVisited_iff hh hw (chosenSeedMask mode wt bt img) (y, x)
  refine ⟨hiff, ?_, ?_⟩
  · intro y x hm
    cases hb : computeBackgroundMaskRgb mode wt bt img y x
    · rfl
    · exfalso
      have hr := (hiff y x).mp hb
      have h2 : chosenSeedMask mode wt bt img y x = true := ReachBg_mask hr
      rw [hm] at h2
      exact Bool.false_ne_true h2
  · intro c hbc
    exact (hiff c.1 c.2).mpr
      (ReachBg.seed c hbc (borderAllSeed_spec hborder c hbc))

/-- C8 witness: on a uniform white 2×2 image (auto mode, default
thresholds) the border hypothesis holds and the whole ring is in the
computed background mask. -/
theorem claim_C8_witness :
    computeBackgroundMaskRgbFull trivOps BgEdgeMode.auto 240 15 whiteImg 0 0 =
      true :=
  (claim_C8_amended trivOps BgEdgeMode.auto 240 15 whiteImg (by decide)
    (by decide) (by decide) (by with_unfolding_all decide)).2.2 (0, 0)
    ⟨by decide, Or.inl rfl⟩

/-- C8 counterexample: a uniform grey (128) 1×1 RGB image is a single-colour
background filling its whole border ring, and its sole pixel belongs to the
connected background region of that colour; yet the computed background mask
is empty — grey 128 is neither white-like (the dynamic threshold never drops
below 150) nor black-like (threshold 15), so the flood fill has no seeds and
the claimed equality with the background region fails. -/
theorem claim_C8_counterexample :
    grayImg.px = (fun _ _ => ⟨128, 128, 128, 255⟩) ∧
    ReachBg grayImg.height grayImg.width
      (fun y x => decide (grayImg.px y x = grayImg.px 0 0)) (0, 0) ∧
    computeBackgroundMaskRgbFull trivOps BgEdgeMode.auto 240 15 grayImg 0 0 =
      false :=
  ⟨rfl,
   ReachBg.seed (0, 0) ⟨by decide, Or.inl rfl⟩ (by decide),
   by with_unfolding_all decide⟩

/-! ### Bounding-box extractor -/

theorem find?_range_some {n : ℕ} {p : ℕ → Bool} {i : ℕ}
    (h : (List.range n).find? p = some i) : i < n ∧ p i = true :=
  ⟨List.mem_range.mp (List.mem_of_find?_eq_some h), List.find?_some h⟩

theorem find?_range_min :
    ∀ (n : ℕ) (p : ℕ → Bool) (i : ℕ), (List.range n).find? p = some i →
      ∀ j < i, p j = false := by
  intro n
  induction n with
  | zero => intro p i h; simp [List.range_zero] at h
  | succ n ih =>
    intro p i h j hj
    rw [List.range_succ_eq_map, List.find?_cons] at h
    cases h0 : p 0 with
    | true =>
      rw [h0] at h
      simp only [Option.some.injEq] at h
      omega
    | false =>
      rw [h0] at h
      simp only [List.find?_map] at h
      obtain ⟨i', hi', hii⟩ := Option.map_eq_some'.mp h
      subst hii
      cases j with
      | zero => exact h0
      | succ k => exact ih (p ∘ Nat.succ) i' hi' k (by omega)

theorem firstIdx_some {n : ℕ} {p : ℕ → Bool} {i : ℕ}
    (h : firstIdx n p = some i) : i < n ∧ p i = true :=
  find?_range_some h

theorem firstIdx_min {n : ℕ} {p : ℕ → Bool} {i : ℕ}
    (h : firstIdx n p = some i) : ∀ j < i, p j = false :=
  find?_range_min n p i h

theorem lastIdx_some {n : ℕ} {p : ℕ → Bool} {i : ℕ}
    (h : lastIdx n p = some i) : i < n ∧ p i = true :=
  ⟨List.mem_range.mp (List.mem_reverse.mp (List.mem_of_find?_eq_some h)),
   List.find?_some h⟩

/-- When the mask has a true pixel, all four index searches succeed and the
box is the padded-and-clamped first/last true rows and columns. -/
theorem findProductBbox_some_spec (ops : RasterOps) (cfg : Config)
    (img : PImage)
    (ha : anyCell img.height img.width (computeProductMask ops cfg img) = true) :
    ∃ fr lr fc lc : ℕ,
      firstIdx img.height (rowAny img.width (computeProductMask ops cfg img)) =
        some fr ∧
      lastIdx img.height (rowAny img.width (computeProductMask ops cfg img)) =
        some lr ∧
      firstIdx img.width (colAny img.height (computeProductMask ops cfg img)) =
        some fc ∧
      lastIdx img.width (colAny img.height (computeProductMask ops cfg img)) =
        some lc ∧
      fr ≤ lr ∧ fc ≤ lc ∧ lr < img.height ∧ lc < img.width ∧
      findProductBbox ops cfg img =
        some (max 0 ((fc : ℤ) - 10), max 0 ((fr : ℤ) - 10),
              min (img.width : ℤ) ((lc : ℤ) + 10),
              min (img.height : ℤ) ((lr : ℤ) + 10)) := by
  obtain ⟨y, x, hinb, hm⟩ := (anyCell_iff _ _ _).mp ha
  rw [inB, decide_eq_true_eq] at hinb
  obtain ⟨hy0, hyh, hx0, hxw⟩ := hinb
  have hrow : rowAny img.width (computeProductMask ops cfg img) y.toNat = true := by
    rw [rowAny, List.any_eq_true]
    refine ⟨x.toNat, List.mem_range.mpr (by omega), ?_⟩
    rwa [show ((y.toNat : ℕ) : ℤ) = y by omega, show ((x.toNat : ℕ) : ℤ) = x by omega]
  have hcol : colAny img.height (computeProductMask ops cfg img) x.toNat = true := by
    rw [colAny, List.any_eq_true]
    refine ⟨y.toNat, List.mem_range.mpr (by omega), ?_⟩
    rwa [show ((y.toNat : ℕ) : ℤ) = y by omega, show ((x.toNat : ℕ) : ℤ) = x by omega]
  have hfr : ∃ fr, firstIdx img.height (rowAny img.width
      (computeProductMask ops cfg img)) = some fr := by
    rw [firstIdx, ← Option.isSome_iff_exists, List.find?_isSome]
    exact ⟨y.toNat, List.mem_range.mpr (by omega), hrow⟩
  have hlr : ∃ lr, lastIdx img.height (rowAny img.width
      (computeProductMask ops cfg img)) = some lr := by
    rw [lastIdx, ← Option.isSome_iff_exists, List.find?_isSome]
    exact ⟨y.toNat, List.mem_reverse.mpr (List.mem_range.mpr (by omega)), hrow⟩
  have hfc : ∃ fc, firstIdx img.width (colAny img.height
      (computeProductMask ops cfg img)) = some fc := by
    rw [firstIdx, ← Option.isSome_iff_exists, List.find?_isSome]
    exact ⟨x.toNat, List.mem_range.mpr (by omega), hcol⟩
  have hlc : ∃ lc, lastIdx img.width (colAny img.height
      (computeProductMask ops cfg img)) = some lc := by
    rw [lastIdx, ← Option.isSome_iff_exists, List.find?_isSome]
    exact ⟨x.toNat, List.mem_reverse.mpr (List.mem_range.mpr (by omega)), hcol⟩
  obtain ⟨fr, hfr⟩ := hfr
  obtain ⟨lr, hlr⟩ := hlr
  obtain ⟨fc, hfc⟩ := hfc
  obtain ⟨lc, hlc⟩ := hlc
  have hfrlr : fr ≤ lr := by
    by_contra hlt
    have h1 := (lastIdx_some hlr).2
    have h2 := firstIdx_min hfr lr (by omega)
    rw [h1] at h2
    simp at h2
  have hfclc : fc ≤ lc := by
    by_contra hlt
    have h1 := (lastIdx_some hlc).2
    have h2 := firstIdx_min hfc lc (by omega)
    rw [h1] at h2
    simp at h2
  refine ⟨fr, lr, fc, lc, hfr, hlr, hfc, hlc, hfrlr, hfclc,
    (lastIdx_some hlr).1, (lastIdx_some hlc).1, ?_⟩
  unfold findProductBbox
  rw [if_neg (by simp [ha])]
  rw [hfr, hlr, hfc, hlc]

/-- Every returned bounding box is a valid sub-rectangle of the image. -/
theorem findProductBbox_valid (ops : RasterOps) (cfg : Config) (img : PImage)
    (x1 y1 x2 y2 : ℤ)
    (h : findProductBbox ops cfg img = some (x1, y1, x2, y2)) :
    0 ≤ x1 ∧ x1 < x2 ∧ x2 ≤ (img.width : ℤ) ∧
    0 ≤ y1 ∧ y1 < y2 ∧ y2 ≤ (img.height : ℤ) := by
  by_cases ha : anyCell img.height img.width (computeProductMask ops cfg img) = true
  · obtain ⟨fr, lr, fc, lc, -, -, -, -, hfrlr, hfclc, hlrh, hlcw, heq⟩ :=
      findProductBbox_some_spec ops cfg img ha
    rw [heq] at h
    simp only [Option.some.injEq, Prod.mk.injEq] at h
    obtain ⟨rfl, rfl, rfl, rfl⟩ := h
    refine ⟨le_max_left 0 _, ?_, min_le_left _ _, le_max_left 0 _, ?_,
      min_le_left _ _⟩
    · omega
    · omega
  · have ha' : anyCell img.height img.width (computeProductMask ops cfg img) =
        false := by
      revert ha
      cases anyCell img.height img.width (computeProductMask ops cfg img) <;> simp
    have hno : findProductBbox ops cfg img = none := by
      unfold findProductBbox
      rw [if_pos ha']
    rw [hno] at h
    exact absurd h (by simp)

/-- C6: `find_product_bbox` returns `None` exactly when the product mask has
no true pixels; otherwise it returns the first/last true column and row
expanded by 10 px and clamped, `(max(0, fc-10), max(0, fr-10),
min(width, lc+10), min(height, lr+10))`; and every returned box satisfies
`0 ≤ x1 < x2 ≤ width` and `0 ≤ y1 < y2 ≤ height`. -/
theorem claim_C6 (ops : RasterOps) (cfg : Config) (img : PImage) :
    (findProductBbox ops cfg img = none ↔
      ¬ ∃ y x : ℤ, inB img.height img.width y x = true ∧
        computeProductMask ops cfg img y x = true) ∧
    (∀ fr lr fc lc : ℕ,
      firstIdx img.height (rowAny img.width (computeProductMask ops cfg img)) =
        some fr →
      lastIdx img.height (rowAny img.width (computeProductMask ops cfg img)) =
        some lr →
      firstIdx img.width (colAny img.height (computeProductMask ops cfg img)) =
        some fc →
      lastIdx img.width (colAny img.height (computeProductMask ops cfg img)) =
        some lc →
      findProductBbox ops cfg img =
        some (max 0 ((fc : ℤ) - 10), max 0 ((fr : ℤ) - 10),
              min (img.width : ℤ) ((lc : ℤ) + 10),
              min (img.height : ℤ) ((lr : ℤ) + 10))) ∧
    (∀ x1 y1 x2 y2 : ℤ, findProductBbox ops cfg img = some (x1, y1, x2, y2) →
      0 ≤ x1 ∧ x1 < x2 ∧ x2 ≤ (img.width : ℤ) ∧
      0 ≤ y1 ∧ y1 < y2 ∧ y2 ≤ (img.height : ℤ)) := by
  refine ⟨?_, ?_, findProductBbox_valid ops cfg img⟩
  · constructor
    · intro hnone hex
      have ha : anyCell img.height img.width (computeProductMask ops cfg img) =
          true := by
        obtain ⟨y, x, hin, hm⟩ := hex
        exact (anyCell_iff _ _ _).mpr ⟨y, x, hin, hm⟩
      obtain ⟨fr, lr, fc, lc, -, -, -, -, -, -, -, -, heq⟩ :=
        findProductBbox_some_spec ops cfg img ha
      rw [heq] at hnone
      exact absurd hnone (by simp)
    · intro hnex
      have ha : anyCell img.height img.width (computeProductMask ops cfg img) =
          false := by
        cases hc : anyCell img.height img.width (computeProductMask ops cfg img)
        · rfl
        · exact absurd ((anyCell_iff _ _ _).mp hc) hnex
      unfold findProductBbox
      rw [if_pos ha]
  · intro fr lr fc lc hfr hlr hfc hlc
    have ha : anyCell img.height img.width (computeProductMask ops cfg img) =
        true := by
      obtain ⟨hfrn, hp⟩ := firstIdx_some hfr
      rw [rowAny, List.any_eq_true] at hp
      obtain ⟨x, hx, hm⟩ := hp
      exact (anyCell_iff _ _ _).mpr ⟨(fr : ℤ), (x : ℤ),
        by rw [inB, decide_eq_true_eq]
           have := List.mem_range.mp hx
           refine ⟨by omega, by omega, by omega, by omega⟩, hm⟩
    obtain ⟨fr', lr', fc', lc', hfr', hlr', hfc', hlc', -, -, -, -, heq⟩ :=
      findProductBbox_some_spec ops cfg img ha
    rw [hfr'] at hfr
    rw [hlr'] at hlr
    rw [hfc'] at hfc
    rw [hlc'] at hlc
    simp only [Option.some.injEq] at hfr hlr hfc hlc
    subst hfr hlr hfc hlc
    exact heq

/-- C6 witness: on a 1×1 fully opaque RGBA image, first/last true row and
column are 0 and the box is `(0, 0, 1, 1)` after padding and clamping. -/
theorem claim_C6_witness :
    findProductBbox trivOps defaultConfig opaqueDot =
      some (max 0 ((0 : ℤ) - 10), max 0 ((0 : ℤ) - 10),
            min (opaqueDot.width : ℤ) ((0 : ℤ) + 10),
            min (opaqueDot.height : ℤ) ((0 : ℤ) + 10)) :=
  (claim_C6 trivOps defaultConfig opaqueDot).2.1 0 0 0 0
    (by with_unfolding_all decide) (by with_unfolding_all decide)
    (by with_unfolding_all decide) (by with_unfolding_all decide)

/-! ### Compositor -/

/-- C1: for every valid input image and configuration (positive image and
canvas dimensions), the compositor returns an RGB image (no alpha band) of
exactly `target_width × target_height`, both in the bounding-box branch
(whose division guards are proved unreachable, since every returned box has
positive extent) and in the no-bbox cover-crop fallback, including
zero-detected-product and degenerate 1×1 inputs. -/
theorem claim_C1 (ops : RasterOps) (cfg : Config) (img : PImage)
    (h1 : 1 ≤ img.width) (h2 : 1 ≤ img.height)
    (_h3 : 1 ≤ cfg.targetWidth) (h4 : 1 ≤ cfg.targetHeight) :
    (smartResizeAndCenter ops cfg img).width = cfg.targetWidth ∧
    (smartResizeAndCenter ops cfg img).height = cfg.targetHeight ∧
    (smartResizeAndCenter ops cfg img).hasAlpha = false := by
  unfold smartResizeAndCenter
  cases hb : findProductBbox ops cfg img with
  | none =>
    show (coverCropFallback ops cfg img).width = _ ∧
      (coverCropFallback ops cfg img).height = _ ∧
      (coverCropFallback ops cfg img).hasAlpha = false
    unfold coverCropFallback
    rw [if_neg (by omega)]
    dsimp only
    split
    · exact ⟨rfl, rfl, rfl⟩
    · rw [if_neg (by omega : ¬ img.width = 0)]
      exact ⟨rfl, rfl, rfl⟩
  | some b =>
    obtain ⟨x1, y1, x2, y2⟩ := b
    have hv := findProductBbox_valid ops cfg img x1 y1 x2 y2 hb
    show (bboxComposite ops cfg img x1 y1 x2 y2).width = _ ∧
      (bboxComposite ops cfg img x1 y1 x2 y2).height = _ ∧
      (bboxComposite ops cfg img x1 y1 x2 y2).hasAlpha = false
    unfold bboxComposite
    rw [if_neg (by omega)]
    exact ⟨rfl, rfl, rfl⟩

/-- C1 witness: a 1×1 RGBA image with zero alpha (no detected product) on
the default 400×400 canvas. -/
theorem claim_C1_witness :
    (smartResizeAndCenter trivOps defaultConfig zeroAlphaImg).width =
      defaultConfig.targetWidth ∧
    (smartResizeAndCenter trivOps defaultConfig zeroAlphaImg).height =
      defaultConfig.targetHeight ∧
    (smartResizeAndCenter trivOps defaultConfig zeroAlphaImg).hasAlpha = false :=
  claim_C1 trivOps defaultConfig zeroAlphaImg (by decide) (by decide)
    (by decide) (by decide)

/-- C5: for every image carrying an alpha band the product mask is
pointwise `alpha > alpha_threshold`; consequently, for an RGBA input with
alpha identically zero the mask is all-false on the extent,
`find_product_bbox` returns `None`, and the compositor takes the
aspect-preserving cover-crop fallback instead of masked placement. -/
theorem claim_C5 (ops : RasterOps) (cfg : Config) (img : PImage)
    (hA : img.hasAlpha = true) :
    (∀ y x : ℤ, computeProductMask ops cfg img y x =
      decide (cfg.alphaThreshold < (img.px y x).a)) ∧
    ((∀ y x : ℤ, inB img.height img.width y x = true → (img.px y x).a = 0) →
      (∀ y x : ℤ, inB img.height img.width y x = true →
        computeProductMask ops cfg img y x = false) ∧
      findProductBbox ops cfg img = none ∧
      smartResizeAndCenter ops cfg img = coverCropFallback ops cfg img) := by
  have hmask : computeProductMask ops cfg img =
      fun y x => decide (cfg.alphaThreshold < (img.px y x).a) := by
    unfold computeProductMask
    rw [if_pos hA]
  refine ⟨fun y x => by rw [hmask], fun hz => ?_⟩
  have hfalse : ∀ y x : ℤ, inB img.height img.width y x = true →
      computeProductMask ops cfg img y x = false := by
    intro y x hin
    rw [hmask]
    show decide (cfg.alphaThreshold < (img.px y x).a) = false
    rw [hz y x hin]
    simp
  have ha : anyCell img.height img.width (computeProductMask ops cfg img) =
      false := by
    cases hc : anyCell img.height img.width (computeProductMask ops cfg img)
    · rfl
    · obtain ⟨y, x, hin, hm⟩ := (anyCell_iff _ _ _).mp hc
      rw [hfalse y x hin] at hm
      exact absurd hm (by simp)
  have hnone : findProductBbox ops cfg img = none := by
    unfold findProductBbox
    rw [if_pos ha]
  refine ⟨hfalse, hnone, ?_⟩
  unfold smartResizeAndCenter
  rw [hnone]

/-- C5 witness: the all-transparent 1×1 RGBA image falls through to `None`
and the cover-crop fallback. -/
theorem claim_C5_witness :
    findProductBbox trivOps defaultConfig zeroAlphaImg = none :=
  ((claim_C5 trivOps defaultConfig zeroAlphaImg rfl).2
    (fun _ _ _ => rfl)).2.1

/-- C2 (amended): for every run of the compositor that finds a bounding
box, provided the two margins leave at least one pixel of room on each axis
(`2*margin_x + 1 ≤ target_width`, `2*margin_y + 1 ≤ target_height`, where
`margin_x = round(target_width * min_margin_ratio)` and likewise for `y`),
the clamped paste offset satisfies `margin_x ≤ paste_x`,
`paste_x + new_width ≤ target_width − margin_x`, and the `y` analogues.
Without that room the claim is false (see the counterexample): `new_width`
is forced to at least 1 pixel while the margins leave none. -/
theorem claim_C2_amended (ops : RasterOps) (cfg : Config) (img : PImage)
    (x1 y1 x2 y2 : ℤ)
    (hb : findProductBbox ops cfg img = some (x1, y1, x2, y2))
    (hmx : 2 * pMarginX cfg + 1 ≤ (cfg.targetWidth : ℤ))
    (hmy : 2 * pMarginY cfg + 1 ≤ (cfg.targetHeight : ℤ)) :
    pMarginX cfg = pyRound ((cfg.targetWidth : ℚ) * cfg.minMarginRatio) ∧
    pMarginY cfg = pyRound ((cfg.targetHeight : ℚ) * cfg.minMarginRatio) ∧
    pMarginX cfg ≤ (computePlacement ops cfg img x1 y1 x2 y2).pasteX ∧
    (computePlacement ops cfg img x1 y1 x2 y2).pasteX +
      (computePlacement ops cfg img x1 y1 x2 y2).newWidth ≤
      (cfg.targetWidth : ℤ) - pMarginX cfg ∧
    pMarginY cfg ≤ (computePlacement ops cfg img x1 y1 x2 y2).pasteY ∧
    (computePlacement ops cfg img x1 y1 x2 y2).pasteY +
      (computePlacement ops cfg img x1 y1 x2 y2).newHeight ≤
      (cfg.targetHeight : ℤ) - pMarginY cfg := by
  have hv := findProductBbox_valid ops cfg img x1 y1 x2 y2 hb
  have hpw : (0 : ℤ) < x2 - x1 := by omega
  have hph : (0 : ℤ) < y2 - y1 := by omega
  have hnw : pNewWidth cfg (x2 - x1) (y2 - y1) ≤
      (cfg.targetWidth : ℤ) - 2 * pMarginX cfg := by
    unfold pNewWidth
    have hBle : (min (pTargetW cfg) ((cfg.targetWidth : ℤ) - 2 * pMarginX cfg)) ≤
        (cfg.targetWidth : ℤ) - 2 * pMarginX cfg := min_le_right _ _
    have hne : ((x2 - x1 : ℤ) : ℚ) ≠ 0 := by
      exact_mod_cast (by omega : (x2 - x1 : ℤ) ≠ 0)
    have hmul : ((x2 - x1 : ℤ) : ℚ) * pScale cfg (x2 - x1) (y2 - y1) ≤
        (((cfg.targetWidth : ℤ) - 2 * pMarginX cfg : ℤ) : ℚ) := by
      have hs1 : pScale cfg (x2 - x1) (y2 - y1) ≤
          ((min (pTargetW cfg) ((cfg.targetWidth : ℤ) - 2 * pMarginX cfg) : ℤ) : ℚ) /
            ((x2 - x1 : ℤ) : ℚ) := min_le_left _ _
      have hpw' : (0 : ℚ) < ((x2 - x1 : ℤ) : ℚ) := by exact_mod_cast hpw
      calc ((x2 - x1 : ℤ) : ℚ) * pScale cfg (x2 - x1) (y2 - y1)
          ≤ ((x2 - x1 : ℤ) : ℚ) *
            (((min (pTargetW cfg) ((cfg.targetWidth : ℤ) - 2 * pMarginX cfg) : ℤ) : ℚ) /
              ((x2 - x1 : ℤ) : ℚ)) :=
            mul_le_mul_of_nonneg_left hs1 (le_of_lt hpw')
        _ = ((min (pTargetW cfg) ((cfg.targetWidth : ℤ) - 2 * pMarginX cfg) : ℤ) : ℚ) := by
            rw [mul_comm]
            exact div_mul_cancel₀ _ hne
        _ ≤ (((cfg.targetWidth : ℤ) - 2 * pMarginX cfg : ℤ) : ℚ) := by
            exact_mod_cast hBle
    have ht := pyTrunc_le_intBound
      (by omega : (0 : ℤ) ≤ (cfg.targetWidth : ℤ) - 2 * pMarginX cfg) hmul
    exact max_le (by omega) ht
  have hnh : pNewHeight cfg (x2 - x1) (y2 - y1) ≤
      (cfg.targetHeight : ℤ) - 2 * pMarginY cfg := by
    unfold pNewHeight
    have hBle : (min (pTargetH cfg) ((cfg.targetHeight : ℤ) - 2 * pMarginY cfg)) ≤
        (cfg.targetHeight : ℤ) - 2 * pMarginY cfg := min_le_right _ _
    have hne : ((y2 - y1 : ℤ) : ℚ) ≠ 0 := by
      exact_mod_cast (by omega : (y2 - y1 : ℤ) ≠ 0)
    have hmul : ((y2 - y1 : ℤ) : ℚ) * pScale cfg (x2 - x1) (y2 - y1) ≤
        (((cfg.targetHeight : ℤ) - 2 * pMarginY cfg : ℤ) : ℚ) := by
      have hs1 : pScale cfg (x2 - x1) (y2 - y1) ≤
          ((min (pTargetH cfg) ((cfg.targetHeight : ℤ) - 2 * pMarginY cfg) : ℤ) : ℚ) /
            ((y2 - y1 : ℤ) : ℚ) := min_le_right _ _
      have hph' : (0 : ℚ) < ((y2 - y1 : ℤ) : ℚ) := by exact_mod_cast hph
      calc ((y2 - y1 : ℤ) : ℚ) * pScale cfg (x2 - x1) (y2 - y1)
          ≤ ((y2 - y1 : ℤ) : ℚ) *
            (((min (pTargetH cfg) ((cfg.targetHeight : ℤ) - 2 * pMarginY cfg) : ℤ) : ℚ) /
              ((y2 - y1 : ℤ) : ℚ)) :=
            mul_le_mul_of_nonneg_left hs1 (le_of_lt hph')
        _ = ((min (pTargetH cfg) ((cfg.targetHeight : ℤ) - 2 * pMarginY cfg) : ℤ) : ℚ) := by
            rw [mul_comm]
            exact div_mul_cancel₀ _ hne
        _ ≤ (((cfg.targetHeight : ℤ) - 2 * pMarginY cfg : ℤ) : ℚ) := by
            exact_mod_cast hBle
    have ht := pyTrunc_le_intBound
      (by omega : (0 : ℤ) ≤ (cfg.targetHeight : ℤ) - 2 * pMarginY cfg) hmul
    exact max_le (by omega) ht
  refine ⟨rfl, rfl, le_max_left _ _, ?_, le_max_left _ _, ?_⟩
  · have hXle : pPasteX ops cfg img x1 y1 x2 y2 ≤
        (cfg.targetWidth : ℤ) - pMarginX cfg - pNewWidth cfg (x2 - x1) (y2 - y1) := by
      unfold pPasteX
      exact max_le (by omega) (min_le_right _ _)
    show pPasteX ops cfg img x1 y1 x2 y2 + pNewWidth cfg (x2 - x1) (y2 - y1) ≤ _
    omega
  · have hYle : pPasteY ops cfg img x1 y1 x2 y2 ≤
        (cfg.targetHeight : ℤ) - pMarginY cfg - pNewHeight cfg (x2 - x1) (y2 - y1) := by
      unfold pPasteY
      exact max_le (by omega) (min_le_right _ _)
    show pPasteY ops cfg img x1 y1 x2 y2 + pNewHeight cfg (x2 - x1) (y2 - y1) ≤ _
    omega

/-- C2 witness: a 1×1 opaque product on the default 400×400 canvas
(margins 20, well within room). -/
theorem claim_C2_witness :
    pMarginX defaultConfig ≤
      (computePlacement trivOps defaultConfig opaqueDot 0 0 1 1).pasteX :=
  (claim_C2_amended trivOps defaultConfig opaqueDot 0 0 1 1
    (by with_unfolding_all decide) (by with_unfolding_all decide)
    (by with_unfolding_all decide)).2.2.1

/-- C2 counterexample: on a 2×2 canvas with `min_margin_ratio = 0.5` the
margins are 1 px each and leave no room, but `new_width` is forced to 1, so
the clamped placement of a 1×1 opaque product violates
`paste_x + new_width ≤ target_width − margin_x` (2 > 1). -/
theorem claim_C2_counterexample :
    findProductBbox trivOps tinyCfg opaqueDot = some (0, 0, 1, 1) ∧
    ¬ ((computePlacement trivOps tinyCfg opaqueDot 0 0 1 1).pasteX +
        (computePlacement trivOps tinyCfg opaqueDot 0 0 1 1).newWidth ≤
        (tinyCfg.targetWidth : ℤ) -
        (computePlacement trivOps tinyCfg opaqueDot 0 0 1 1).marginX) := by
  refine ⟨by with_unfolding_all decide, by with_unfolding_all decide⟩
